import Mathlib

/-!
# libmarkov: a shallow embedding of the Markov chain text model

The definitions below follow `src/libmarkov.cpp` and `src/libmarkov.h`.

Modelling conventions.

* A `std::string` is a Lean `String`; `length()` is `String.length`.
* An interned word (`const std::string*` into the `unordered_set` of
  `MarkovWordCollection`) is modelled by the string it points to: the set keeps
  one stable element per distinct text, so inside one chain two interned
  pointers are equal exactly when the texts are equal.
* An `unordered_map` of children is an association list, read in iteration
  order; a new key is placed at the end (the real iteration order is
  unspecified, and nothing below depends on the choice).  Nullable pointers to
  the child map and to the candidate list are `Option`s.
* A pointer to a node inside the tree is the path of child keys that leads to
  it from the root; a mutation through such a pointer is a functional update
  at that path.
* The Mersenne twister is a stream of raw outputs (`Nat → Nat`, read modulo
  `2^32`); drawing a value shifts the stream.
* Container sizes are natural numbers.  The word count of the collection, which
  grows with the input, is returned as a `uint32_t` and is reduced modulo `2^32`,
  as is the processed-word counter.  The other containers (the window, a child
  map, a candidate list) are taken to hold fewer than `2^32` elements, where the
  `size_t` and `uint32_t` views of a size agree.
* `fitValueWithinRange` is evaluated in exact arithmetic (no `double` rounding
  error); its final clamp is kept as in the source.
* An operation that can throw returns the exception (or the value) together
  with the state it leaves behind.
-/

/-- The constant `szMarkovMaxWordLength` of `libmarkov.h`. -/
def szMarkovMaxWordLength : Nat := 1023

/-- The constant `UINT32_MAX`. -/
def UINT32_MAX : Nat := 2 ^ 32 - 1

/-- The enumeration `MarkovOutputMode`. -/
inductive MarkovOutputMode where
  | MARKOV_MODE_RANDOM
  | MARKOV_MODE_PROBABLE
  deriving DecidableEq, Repr

/-- The exception classes of `libmarkov.h`, and `std::runtime_error` as thrown by
`MarkovNode::getRandomCandidate`. -/
inductive MarkovException where
  | MarkovMissingWordException
  | MarkovIOException
  | MarkovModelEmptyException
  | MarkovConstraintException
  | runtime_error
  deriving DecidableEq, Repr

/-- The state of a `std::mt19937`: the stream of raw outputs still to come. -/
abbrev RandomSource := Nat → Nat

/-- One call of `mtRandomSource()`: a 32-bit value and the advanced generator. -/
def RandomSource.draw (mt : RandomSource) : Nat × RandomSource :=
  (mt 0 % 2 ^ 32, fun i => mt (i + 1))

/-- The value of `round(a / b)` for natural `a` and positive `b`, halves rounded away
from zero as `std::round` does. -/
def roundDiv (a b : Nat) : Nat := (2 * a + b) / (2 * b)

/-- The function `fitValueWithinRange` (lines 534-548), in exact arithmetic.  The
difference `uiMax - uiMin` is an unsigned 32-bit subtraction. -/
def fitValueWithinRange (uiValue uiMin uiMax : Nat) : Nat :=
  let uiSpan := (uiMax + 2 ^ 32 - uiMin) % 2 ^ 32
  let uiResult := (roundDiv (uiValue * uiSpan) UINT32_MAX + uiMin) % 2 ^ 32
  if uiResult > uiMax then uiMax
  else if uiResult < uiMin then uiMin
  else uiResult

/-- The index used by both overloads of `selectRandomElement` for a container of
`uiContainerSize` elements and the raw value `uiRandomNumber` (lines 20-21, 35-42). -/
def selectIndex (uiContainerSize uiRandomNumber : Nat) : Nat :=
  if uiContainerSize ≤ 1 then 0
  else fitValueWithinRange uiRandomNumber 0 ((uiContainerSize - 1) % 2 ^ 32)

/-- The vector overload of `selectRandomElement` (lines 11-22): `none` is `nullptr`. -/
def selectRandomElement {T : Type} (vContainer : List T) (mtRandomSource : RandomSource) :
    Option T × RandomSource :=
  if vContainer.length ≤ 0 then (none, mtRandomSource)
  else
    let r := mtRandomSource.draw
    (vContainer.get? (selectIndex vContainer.length r.1), r.2)

/-- The container `advance(imIterator, uiOffset)` followed by a dereference, over the
entries of a map in iteration order. -/
def advanceIterator {K V : Type} : List (K × V) → Nat → Option (K × V)
  | [], _ => none
  | e :: _, 0 => some e
  | _ :: rest, uiOffset + 1 => advanceIterator rest uiOffset

/-- The map overload of `selectRandomElement` (lines 24-48): `(none, none)` is the pair
of null pointers. -/
def selectRandomEntry {K V : Type} (mContainer : List (K × V)) (mtRandomSource : RandomSource) :
    (Option K × Option V) × RandomSource :=
  if mContainer.length ≤ 0 then ((none, none), mtRandomSource)
  else
    let r := mtRandomSource.draw
    match advanceIterator mContainer (selectIndex mContainer.length r.1) with
    | some e => ((some e.1, some e.2), r.2)
    | none => ((none, none), r.2)

/-! ## MarkovWordSequence -/

/-- The class `MarkovWordSequence`: the vector `vsWords`. -/
structure MarkovWordSequence where
  vsWords : List String
  deriving DecidableEq, Repr

namespace MarkovWordSequence

/-- The method `getWords`. -/
def getWords (s : MarkovWordSequence) : List String := s.vsWords

/-- The method `getWordCount`. -/
def getWordCount (s : MarkovWordSequence) : Nat := s.vsWords.length

/-- The method `getLastWord` (lines 55-62). -/
def getLastWord (s : MarkovWordSequence) : Except MarkovException String :=
  if s.getWordCount < 1 then .error .MarkovMissingWordException
  else .ok (s.vsWords.getLastD "")

/-- The constructor `MarkovWordSequence(size_t szCapacity)`: an empty sequence. -/
def new (_szCapacity : Nat) : MarkovWordSequence := ⟨[]⟩

/-- The loop of `shiftToSize` (lines 90-96) on the underlying vector: erase the first
element while the size exceeds `uiSize`. -/
def shiftLoop : List String → Nat → List String
  | [], _ => []
  | w :: ws, uiSize => if (w :: ws).length > uiSize then shiftLoop ws uiSize else w :: ws

/-- The method `shiftToSize`. -/
def shiftToSize (s : MarkovWordSequence) (uiSize : Nat) : MarkovWordSequence :=
  ⟨shiftLoop s.vsWords uiSize⟩

/-- The method `addWord`. -/
def addWord (s : MarkovWordSequence) (sWord : String) : MarkovWordSequence :=
  ⟨s.vsWords ++ [sWord]⟩

/-- The method `shiftWordIn` (lines 79-88).  For an empty vector `size() - 1` wraps
around in the source and the shift does nothing, as it does here with `0 - 1 = 0`. -/
def shiftWordIn (s : MarkovWordSequence) (sWord : String) : MarkovWordSequence :=
  if s.getWordCount = 1 then ⟨s.vsWords.set 0 sWord⟩
  else (s.shiftToSize (s.vsWords.length - 1)).addWord sWord

/-- The method `addOrShiftWord` (lines 103-114). -/
def addOrShiftWord (s : MarkovWordSequence) (sWord : String) (uiMaxWordCount : Nat) :
    MarkovWordSequence :=
  let s1 := if s.getWordCount = 0 ∨ s.getWordCount < uiMaxWordCount then s.addWord sWord
            else s.shiftWordIn sWord
  s1.shiftToSize uiMaxWordCount

/-- The method `clearWords`. -/
def clearWords (_s : MarkovWordSequence) : MarkovWordSequence := ⟨[]⟩

end MarkovWordSequence

/-! ## StaticMarkovWordSource -/

/-- The class `StaticMarkovWordSource`: the words from the iterator position onwards. -/
structure StaticMarkovWordSource where
  remaining : List String
  deriving DecidableEq, Repr

namespace StaticMarkovWordSource

/-- The constructor: the iterator starts at `vsWords.begin()`. -/
def new (vsWords : List String) : StaticMarkovWordSource := ⟨vsWords⟩

/-- The method `getNextWord` (lines 222-235): the iterator is advanced before the
length check, so it has moved on when the exception is thrown. -/
def getNextWord (src : StaticMarkovWordSource) :
    Except MarkovException String × StaticMarkovWordSource :=
  match src.remaining with
  | [] => (.ok "", src)
  | sNextWord :: rest =>
    if sNextWord.length > szMarkovMaxWordLength then (.error .MarkovConstraintException, ⟨rest⟩)
    else (.ok sNextWord, ⟨rest⟩)

end StaticMarkovWordSource

/-! ## StreamingMarkovWordSource -/

/-- The constant `vsWhitespaceCharacters` of `libmarkov.h`. -/
def vsWhitespaceCharacters : List String := [" ", "\t", "\n", "\r"]

/-- A `std::istream` over a character sequence held in memory: the characters not yet
read and the `eofbit`, which a read sets when nothing is left.  Faults of the stream
(`badbit`, a `failbit` without `eofbit`) do not occur on such a stream and are left
out, and with them the `MarkovIOException` path. -/
structure IStream where
  pending : List Char
  eofbit : Bool
  deriving DecidableEq, Repr

/-- The class `StreamingMarkovWordSource`: the wrapped stream and the separators.  The
member `sBuffer` is cleared at the start of every read and carries nothing from one
call to the next; it is a local of `readLoop` here. -/
structure StreamingMarkovWordSource where
  isWordStream : IStream
  vsWordSeparators : List String
  deriving DecidableEq, Repr

/-- How the `for` loop over the separators (lines 181-208) ends. -/
inductive SeparatorScan where
  /-- A separator was completed after a non-empty word: `return sBuffer.substr(...)`. -/
  | word (s : String)
  /-- A separator was completed with nothing before it: the buffer is cleared, every
  iterator is reset, `break`. -/
  | cleared
  /-- The loop ran to its end; the iterators afterwards. -/
  | scanned (visSeparatorMatches : List Nat)
  deriving DecidableEq, Repr

namespace StreamingMarkovWordSource

/-- The constructor (lines 141-146), with the default separators when none are given. -/
def new (input : List Char) (vsWordSeparators : List String) : StreamingMarkovWordSource :=
  { isWordStream := ⟨input, false⟩, vsWordSeparators := vsWordSeparators }

/-- The `for` loop of lines 181-208 from separator `i` on: `cBuffer` is the character
just read, `sBuffer` the buffer that already holds it, and an iterator into a separator
is the number of its characters matched so far.  The subtraction of the lengths is one
of `size_t` (64 bits). -/
def scanSeparators (cBuffer : Char) (sBuffer : String) : List String → List Nat → SeparatorScan
  | sSeparator :: seps, isMatch :: vis =>
    if isMatch = sSeparator.length then
      match scanSeparators cBuffer sBuffer seps vis with
      | .scanned vis1 => .scanned (isMatch :: vis1)
      | r => r
    else if sSeparator.data[isMatch]? = some cBuffer then
      if isMatch + 1 = sSeparator.length then
        let szWordLength := (sBuffer.length + 2 ^ 64 - sSeparator.length) % 2 ^ 64
        if szWordLength > 0 then .word (String.mk (sBuffer.data.take szWordLength))
        else .cleared
      else
        match scanSeparators cBuffer sBuffer seps vis with
        | .scanned vis1 => .scanned ((isMatch + 1) :: vis1)
        | r => r
    else
      match scanSeparators cBuffer sBuffer seps vis with
      | .scanned vis1 => .scanned (0 :: vis1)
      | r => r
  | _, _ => .scanned []

/-- The `while (true)` loop of `getNextWord` (lines 161-209) on the characters still to
be read: the word or the exception, and the stream afterwards. -/
def readLoop (vsWordSeparators : List String) :
    List Char → String → List Nat → Except MarkovException String × IStream
  | [], sBuffer, _ => (.ok sBuffer, ⟨[], true⟩)
  | cBuffer :: rest, sBuffer, visSeparatorMatches =>
    if vsWordSeparators.isEmpty then (.ok (sBuffer.push cBuffer), ⟨rest, false⟩)
    else if (sBuffer.push cBuffer).length > szMarkovMaxWordLength then
      (.error .MarkovConstraintException, ⟨rest, false⟩)
    else
      match scanSeparators cBuffer (sBuffer.push cBuffer) vsWordSeparators
          visSeparatorMatches with
      | .word s => (.ok s, ⟨rest, false⟩)
      | .cleared => readLoop vsWordSeparators rest "" (vsWordSeparators.map (fun _ => 0))
      | .scanned vis1 => readLoop vsWordSeparators rest (sBuffer.push cBuffer) vis1

/-- The method `getNextWord` (lines 148-211). -/
def getNextWord (src : StreamingMarkovWordSource) :
    Except MarkovException String × StreamingMarkovWordSource :=
  if src.isWordStream.eofbit then (.ok "", src)
  else
    let r := readLoop src.vsWordSeparators src.isWordStream.pending ""
      (src.vsWordSeparators.map (fun _ => 0))
    (r.1, { src with isWordStream := r.2 })

/-- The results of `k` calls of `getNextWord` in a row. -/
def nextWords : Nat → StreamingMarkovWordSource → List (Except MarkovException String)
  | 0, _ => []
  | k + 1, src => src.getNextWord.1 :: nextWords k src.getNextWord.2

end StreamingMarkovWordSource

/-! ## MarkovWordCollection -/

/-- The class `MarkovWordCollection`: the set `ssWords`, as the list of its distinct
elements. -/
structure MarkovWordCollection where
  ssWords : List String
  deriving DecidableEq, Repr

namespace MarkovWordCollection

/-- The method `resolveWord` (lines 333-336): `insert` adds the word unless an equal
one is stored; the interned word and the collection afterwards. -/
def resolveWord (c : MarkovWordCollection) (sWord : String) : String × MarkovWordCollection :=
  (sWord, if sWord ∈ c.ssWords then c else ⟨c.ssWords ++ [sWord]⟩)

/-- The method `getWordCount` (lines 338-341): `ssWords.size()` returned as a
`uint32_t`, that is modulo `2^32`. -/
def getWordCount (c : MarkovWordCollection) : Nat := c.ssWords.length % 2 ^ 32

end MarkovWordCollection

/-! ## MarkovNode -/

/-- The class `MarkovNode`: the nullable child map and the nullable candidate list. -/
inductive MarkovNode where
  | mk (pmmnChildren : Option (List (String × MarkovNode)))
       (pvsCandidates : Option (List String)) : MarkovNode

namespace MarkovNode

/-- The field `pmmnChildren`. -/
def pmmnChildren : MarkovNode → Option (List (String × MarkovNode))
  | .mk m _ => m

/-- The field `pvsCandidates`. -/
def pvsCandidates : MarkovNode → Option (List String)
  | .mk _ c => c

/-- The constructor `MarkovNode()`: both pointers null. -/
def new : MarkovNode := .mk none none

/-- The lookup `find` in a child map: the first entry with the key. -/
def findEntry (psNextWord : String) : List (String × MarkovNode) → Option MarkovNode
  | [] => none
  | (k, n) :: rest => if k = psNextWord then some n else findEntry psNextWord rest

/-- The method `findChild` (lines 256-268). -/
def findChild (n : MarkovNode) (psNextWord : String) : Option MarkovNode :=
  match n.pmmnChildren with
  | none => none
  | some m => findEntry psNextWord m

/-- The method `getRandomCandidate` (lines 270-283). -/
def getRandomCandidate (n : MarkovNode) (mtRandomSource : RandomSource) :
    Except MarkovException (Option String) × RandomSource :=
  match n.pvsCandidates with
  | none => (.ok none, mtRandomSource)
  | some vs =>
    if vs.isEmpty then (.ok none, mtRandomSource)
    else
      match selectRandomElement vs mtRandomSource with
      | (none, mt) => (.error .runtime_error, mt)
      | (some psCandidate, mt) => (.ok (some psCandidate), mt)

/-- The method `getCandidateCount` (lines 285-292). -/
def getCandidateCount (n : MarkovNode) : Nat :=
  match n.pvsCandidates with
  | none => 0
  | some vs => vs.length

/-- The call `insert(make_pair(psNextWord, new MarkovNode()))` on a child map: nothing
changes when the key is present. -/
def insertEntry (psNextWord : String) : List (String × MarkovNode) → List (String × MarkovNode)
  | [] => [(psNextWord, MarkovNode.new)]
  | (k, n) :: rest =>
    if k = psNextWord then (k, n) :: rest else (k, n) :: insertEntry psNextWord rest

/-- The effect of `resolveChild` (lines 295-308) on the node it is called on; the
reference it returns is the child `findChild` then finds under `psNextWord`. -/
def resolveChild (n : MarkovNode) (psNextWord : String) : MarkovNode :=
  match n with
  | .mk none c => .mk (some (insertEntry psNextWord [])) c
  | .mk (some m) c => .mk (some (insertEntry psNextWord m)) c

/-- The method `addCandidate` (lines 310-317). -/
def addCandidate (n : MarkovNode) (psCandidate : String) : MarkovNode :=
  match n with
  | .mk m none => .mk m (some [psCandidate])
  | .mk m (some vs) => .mk m (some (vs ++ [psCandidate]))

/-- The method `getRandomChild` (lines 319-331). -/
def getRandomChild (n : MarkovNode) (mtRandomSource : RandomSource) :
    (Option String × Option MarkovNode) × RandomSource :=
  match n.pmmnChildren with
  | none => ((none, none), mtRandomSource)
  | some m => selectRandomEntry m mtRandomSource

/-- A write through a reference to the child stored under `w`: the entry `find` reaches
is replaced by `f` of it. -/
def updateEntry (w : String) (f : MarkovNode → MarkovNode) :
    List (String × MarkovNode) → List (String × MarkovNode)
  | [] => []
  | (k, n) :: rest => if k = w then (k, f n) :: rest else (k, n) :: updateEntry w f rest

/-- A write through a reference to the child of `n` stored under `w`. -/
def updateChild (n : MarkovNode) (w : String) (f : MarkovNode → MarkovNode) : MarkovNode :=
  match n with
  | .mk none c => .mk none c
  | .mk (some m) c => .mk (some (updateEntry w f m)) c

/-- The loop of lines 436-439 started at node `n`: `resolveChild` for each word of the
sequence in turn, each call made on the child the previous one returned. -/
def resolvePath : List String → MarkovNode → MarkovNode
  | [], n => n
  | w :: ws, n => (n.resolveChild w).updateChild w (resolvePath ws)

/-- The node a pointer denotes: follow the path of child keys from `n`. -/
def nodeAt : List String → MarkovNode → Option MarkovNode
  | [], n => some n
  | w :: ws, n =>
    match n.findChild w with
    | none => none
    | some ch => nodeAt ws ch

/-- A write through a pointer to the node at `path`: that node is replaced by `f` of it. -/
def updateAt (f : MarkovNode → MarkovNode) : List String → MarkovNode → MarkovNode
  | [], n => f n
  | w :: ws, n => n.updateChild w (updateAt f ws)

end MarkovNode

/-! ## MarkovChain -/

/-- The class `MarkovChain`. -/
structure MarkovChain where
  uiDepth : Nat
  mmOutputMode : MarkovOutputMode
  mnTreeRoot : MarkovNode
  mcWordCollection : MarkovWordCollection
  msCurrentState : MarkovWordSequence
  mtRandomSource : RandomSource

namespace MarkovChain

/-- The constructor `MarkovChain(uint8_t uiDepth)` (lines 347-353); `seed` is the state
the generator gets from the `random_device`. -/
def new (uiDepth : Nat) (seed : RandomSource) : MarkovChain :=
  { uiDepth := uiDepth
    mmOutputMode := .MARKOV_MODE_RANDOM
    mnTreeRoot := MarkovNode.new
    mcWordCollection := ⟨[]⟩
    msCurrentState := MarkovWordSequence.new uiDepth
    mtRandomSource := seed }

/-- The method `getDepth`. -/
def getDepth (c : MarkovChain) : Nat := c.uiDepth

/-- The method `getUniqueWordCount` (lines 378-381): the `uint32_t` that
`mcWordCollection.getWordCount()` returns. -/
def getUniqueWordCount (c : MarkovChain) : Nat := c.mcWordCollection.getWordCount

/-- The method `setOutputMode` (lines 388-391). -/
def setOutputMode (c : MarkovChain) (mmOutputMode : MarkovOutputMode) : MarkovChain :=
  { c with mmOutputMode := mmOutputMode }

/-- The `do ... while` loop of `reset` (lines 401-409), entered with the current node,
the generator and the window: the window and the generator when the loop ends.  The
loop ends because each round descends to a child of the current node. -/
def resetLoop (pmnCurrentNode : MarkovNode) (mtRandomSource : RandomSource)
    (msCurrentState : MarkovWordSequence) : MarkovWordSequence × RandomSource :=
  match h : pmnCurrentNode.getRandomChild mtRandomSource with
  | ((psCurrentWord, some pmnNext), mt) =>
    resetLoop pmnNext mt
      (match psCurrentWord with
       | some w => msCurrentState.addWord w
       | none => msCurrentState)
  | ((psCurrentWord, none), mt) =>
    (match psCurrentWord with
     | some w => msCurrentState.addWord w
     | none => msCurrentState, mt)
termination_by sizeOf pmnCurrentNode
decreasing_by
  have hadv : ∀ (m : List (String × MarkovNode)) (i : Nat) (e : String × MarkovNode),
      advanceIterator m i = some e → sizeOf e.2 < sizeOf m := by
    intro m
    induction m with
    | nil => intro i e he; simp [advanceIterator] at he
    | cons x rest ih =>
      intro i e he
      cases i with
      | zero =>
        simp only [advanceIterator, Option.some.injEq] at he
        subst he
        obtain ⟨k, v⟩ := x
        simp only [List.cons.sizeOf_spec, Prod.mk.sizeOf_spec]
        omega
      | succ i =>
        simp only [advanceIterator] at he
        have hlt := ih i e he
        simp only [List.cons.sizeOf_spec]
        omega
  obtain ⟨m, c⟩ := pmnCurrentNode
  cases m with
  | none => simp [MarkovNode.getRandomChild, MarkovNode.pmmnChildren] at h
  | some m =>
    simp only [MarkovNode.getRandomChild, MarkovNode.pmmnChildren, selectRandomEntry] at h
    split at h
    · simp at h
    · split at h
      · rename_i e he
        simp only [Prod.mk.injEq, Option.some.injEq] at h
        have hlt := hadv m _ e he
        rw [h.1.2] at hlt
        simp only [MarkovNode.mk.sizeOf_spec, Option.some.sizeOf_spec]
        omega
      · simp at h

/-- The method `reset` (lines 396-414). -/
def reset (c : MarkovChain) : Except MarkovException Unit × MarkovChain :=
  let r := resetLoop c.mnTreeRoot c.mtRandomSource c.msCurrentState.clearWords
  let c1 := { c with msCurrentState := r.1, mtRandomSource := r.2 }
  if r.1.getWordCount < 1 then (.error .MarkovModelEmptyException, c1)
  else (.ok (), c1)

/-- The calls `mcWordCollection.resolveWord(...)` made for the words of a sequence in
turn: the interned words and the collection afterwards. -/
def resolveWords : List String → MarkovWordCollection → List String × MarkovWordCollection
  | [], wc => ([], wc)
  | w :: ws, wc =>
    let r := wc.resolveWord w
    let rs := resolveWords ws r.2
    (r.1 :: rs.1, rs.2)

/-- The local state of `feedModel`: the parts of the chain it writes, the local window
`mwCurrentSequence`, the pointer `pmnCurrentNode` (`none` is `nullptr`) and the counter
`*puiProcessedWordCount`. -/
structure FeedState where
  mnTreeRoot : MarkovNode
  mcWordCollection : MarkovWordCollection
  mwCurrentSequence : MarkovWordSequence
  pmnCurrentNode : Option (List String)
  uiProcessedWordCount : Nat

/-- Lines 432-440 of `feedModel`: find or create the nodes for the current sequence. -/
def feedResolve (st : FeedState) : FeedState :=
  if st.mwCurrentSequence.getWordCount > 0 then
    let r := resolveWords st.mwCurrentSequence.getWords st.mcWordCollection
    { st with
      mnTreeRoot := st.mnTreeRoot.resolvePath r.1
      mcWordCollection := r.2
      pmnCurrentNode := some r.1 }
  else st

/-- Lines 447-456 of `feedModel`: slide the window, record the candidate, count. -/
def feedRecord (uiDepth : Nat) (st : FeedState) (sNextWord : String) : FeedState :=
  let seq := st.mwCurrentSequence.addOrShiftWord sNextWord uiDepth
  match st.pmnCurrentNode with
  | some path =>
    let r := st.mcWordCollection.resolveWord sNextWord
    { st with
      mwCurrentSequence := seq
      mnTreeRoot := st.mnTreeRoot.updateAt (fun n => n.addCandidate r.1) path
      mcWordCollection := r.2
      uiProcessedWordCount := (st.uiProcessedWordCount + 1) % 2 ^ 32 }
  | none =>
    { st with
      mwCurrentSequence := seq
      uiProcessedWordCount := (st.uiProcessedWordCount + 1) % 2 ^ 32 }

/-- The `while (true)` loop of `feedModel` (lines 429-457) over a static source whose
iterator stands before `vsRemaining`.  Each round calls `getNextWord`, which moves the
iterator one word on, so the next round runs on the tail. -/
def feedLoop (uiDepth : Nat) : List String → FeedState → Except MarkovException Unit × FeedState
  | [], st =>
    match (StaticMarkovWordSource.getNextWord ⟨[]⟩).1 with
    | .error e => (.error e, feedResolve st)
    | .ok _ => (.ok (), feedResolve st)
  | w :: rest, st =>
    match (StaticMarkovWordSource.getNextWord ⟨w :: rest⟩).1 with
    | .error e => (.error e, feedResolve st)
    | .ok sNextWord =>
      if sNextWord = "" then (.ok (), feedResolve st)
      else feedLoop uiDepth rest (feedRecord uiDepth (feedResolve st) sNextWord)

/-- The state of the loop of `feedModel` at the top of a round, after the rounds that
recorded the words `pre` one after the other, started from `st`. -/
def feedRounds (d : Nat) (st : FeedState) (pre : List String) :
    FeedState :=
  pre.foldl (fun s w => feedRecord d (feedResolve s) w) st

/-- The state in which `feedModel` enters its loop on the chain `c`. -/
def feedStart (c : MarkovChain) : FeedState :=
  { mnTreeRoot := c.mnTreeRoot
    mcWordCollection := c.mcWordCollection
    mwCurrentSequence := MarkovWordSequence.new c.uiDepth
    pmnCurrentNode := none
    uiProcessedWordCount := 0 }

/-- What a `feedModel` call leaves behind: the exception if one was thrown, the chain,
and the value of `*puiProcessedWordCount`. -/
structure FeedOutcome where
  result : Except MarkovException Unit
  chain : MarkovChain
  uiProcessedWordCount : Nat

/-- The method `feedModel` (lines 421-458) on a `StaticMarkovWordSource`. -/
def feedModel (c : MarkovChain) (mcSource : StaticMarkovWordSource) : FeedOutcome :=
  let r := feedLoop c.uiDepth mcSource.remaining c.feedStart
  { result := r.1
    chain := { c with mnTreeRoot := r.2.mnTreeRoot, mcWordCollection := r.2.mcWordCollection }
    uiProcessedWordCount := r.2.uiProcessedWordCount }

/-- The matching loop of `generateWord` (lines 480-495): follow the window from the
current node while children match; each looked-up word goes through `resolveWord`. -/
def matchWindow : List String → MarkovNode → MarkovWordCollection →
    MarkovNode × MarkovWordCollection
  | [], pmnCurrentNode, wc => (pmnCurrentNode, wc)
  | w :: ws, pmnCurrentNode, wc =>
    let r := wc.resolveWord w
    match pmnCurrentNode.findChild r.1 with
    | none => (pmnCurrentNode, r.2)
    | some pmnNewNode => matchWindow ws pmnNewNode r.2

/-- What a `generateWord` call leaves behind: the exception or the returned word, the
value of `*pbResetOccurred`, and the chain. -/
structure GenerateOutcome where
  result : Except MarkovException String
  bResetOccurred : Bool
  chain : MarkovChain

/-- The method `generateWord` (lines 466-525). -/
def generateWord (c : MarkovChain) : GenerateOutcome :=
  let entry := if c.msCurrentState.getWordCount < 1 then c.reset else (.ok (), c)
  match entry.1 with
  | .error e => ⟨.error e, false, entry.2⟩
  | .ok _ =>
    let c1 := entry.2
    match c1.msCurrentState.getLastWord with
    | .error e => ⟨.error e, false, c1⟩
    | .ok sGeneratedWord =>
      let walk := matchWindow c1.msCurrentState.getWords c1.mnTreeRoot c1.mcWordCollection
      let c2 := { c1 with mcWordCollection := walk.2 }
      let selection : Except MarkovException (Option String) × RandomSource :=
        match c2.mmOutputMode with
        | .MARKOV_MODE_RANDOM => walk.1.getRandomCandidate c2.mtRandomSource
        | .MARKOV_MODE_PROBABLE => (.ok none, c2.mtRandomSource)
      let c3 := { c2 with mtRandomSource := selection.2 }
      match selection.1 with
      | .error e => ⟨.error e, false, c3⟩
      | .ok none =>
        if c3.mmOutputMode = .MARKOV_MODE_RANDOM then
          let r := c3.reset
          match r.1 with
          | .error e => ⟨.error e, true, r.2⟩
          | .ok _ => ⟨.ok sGeneratedWord, true, r.2⟩
        else ⟨.ok "", true, c3⟩
      | .ok (some psSelectedCandidate) =>
        ⟨.ok sGeneratedWord, false,
          { c3 with
            msCurrentState := c3.msCurrentState.addOrShiftWord psSelectedCandidate c3.uiDepth }⟩

end MarkovChain

/-! ## Reading the tree, and the vocabulary of the specification -/

/-- The entries of the child map of a node (none when the pointer is null). -/
def MarkovNode.entries (n : MarkovNode) : List (String × MarkovNode) :=
  n.pmmnChildren.getD []

/-- The candidate list of a node (empty when the pointer is null). -/
def MarkovNode.candidates (n : MarkovNode) : List String :=
  n.pvsCandidates.getD []

/-- The candidate list of the node reached from `n` by `path` (empty when no node is
reached). -/
def MarkovNode.candidatesAt (path : List String) (n : MarkovNode) : List String :=
  match n.nodeAt path with
  | some x => x.candidates
  | none => []

/-- The last `k` words of a list (all of it when it is shorter). -/
def lastWords (k : Nat) (l : List String) : List String :=
  l.drop (l.length - k)

/-- The window at position `i` of a fed list for order `d`: the last `min i d` words of
`w1..wi`. -/
def windowAt (d : Nat) (ws : List String) (i : Nat) : List String :=
  lastWords (min i d) (ws.take i)

/-- The words `w(i+1)`, in increasing `i`, over the positions `1 ≤ i < n` of a fed list
whose window is `path` (`ws[i]?` is `w(i+1)`, counting from zero). -/
def expectedCandidates (d : Nat) (ws : List String) (path : List String) : List String :=
  (List.range ws.length).filterMap
    (fun i => if 1 ≤ i ∧ windowAt d ws i = path then ws[i]? else none)

/-- A word a supply may hand to the chain: non-empty and within the length bound. -/
def ValidWord (w : String) : Prop :=
  w ≠ "" ∧ w.length ≤ szMarkovMaxWordLength

instance (w : String) : Decidable (ValidWord w) :=
  inferInstanceAs (Decidable (w ≠ "" ∧ w.length ≤ szMarkovMaxWordLength))

/-- A call on a chain; a feed is made through a static supply over the given words. -/
inductive ChainCall where
  | feedModel (vsWords : List String)
  | reset
  | generateWord
  | setOutputMode (mmOutputMode : MarkovOutputMode)

/-- The chain a call leaves behind (whether or not it threw). -/
def ChainCall.run (call : ChainCall) (c : MarkovChain) : MarkovChain :=
  match call with
  | .feedModel vsWords => (c.feedModel (StaticMarkovWordSource.new vsWords)).chain
  | .reset => c.reset.2
  | .generateWord => c.generateWord.chain
  | .setOutputMode m => c.setOutputMode m

/-- The chain left behind by a sequence of calls made in order. -/
def runCalls (calls : List ChainCall) (c : MarkovChain) : MarkovChain :=
  calls.foldl (fun c call => call.run c) c

/-- Every key and every candidate within `k` levels below `n` satisfies `Q`, and there
is nothing deeper: the subtree of `n` has depth at most `k`. -/
def TreeInv (Q : String → Prop) : Nat → MarkovNode → Prop
  | 0, n => n.entries = [] ∧ ∀ x ∈ n.candidates, Q x
  | k + 1, n => (∀ x ∈ n.candidates, Q x) ∧ ∀ e ∈ n.entries, Q e.1 ∧ TreeInv Q k e.2

/-- The bound met by every word a chain stores: it is not empty and it is interned in
the word collection. -/
def StoredWord (wc : MarkovWordCollection) (w : String) : Prop :=
  w ≠ "" ∧ w ∈ wc.ssWords

/-- The invariant of the chains reachable from construction: the tree is no deeper than
the order and holds stored words only, the generation window is no longer than the
order and holds stored words only, and the collection lists each word once. -/
def ChainInv (c : MarkovChain) : Prop :=
  TreeInv (StoredWord c.mcWordCollection) c.uiDepth c.mnTreeRoot ∧
  (∀ w ∈ c.msCurrentState.vsWords, StoredWord c.mcWordCollection w) ∧
  c.msCurrentState.vsWords.length ≤ c.uiDepth ∧
  c.mcWordCollection.ssWords.Nodup

/-- The invariant of the loop of `feedModel` for a chain of order `d` whose collection
was `wc0` when the call began. -/
def FeedInv (d : Nat) (wc0 : MarkovWordCollection) (st : MarkovChain.FeedState) : Prop :=
  TreeInv (StoredWord st.mcWordCollection) d st.mnTreeRoot ∧
  st.mwCurrentSequence.vsWords.length ≤ d ∧
  (∀ w ∈ st.mwCurrentSequence.vsWords, w ≠ "") ∧
  (∀ x ∈ wc0.ssWords, x ∈ st.mcWordCollection.ssWords) ∧
  st.mcWordCollection.ssWords.Nodup

/-- A word of 1024 characters, one more than a supply accepts. -/
def overlongWord : String := String.mk (List.replicate 1024 'a')

/-- The number of raw 32-bit values for which a container of `n` elements is read at
index `k`. -/
def selectionCount (n k : Nat) : Nat :=
  ((Finset.range (2 ^ 32)).filter (fun r => selectIndex n r = k)).card

/-- The number of raw 32-bit values for which `selectRandomElement` returns `w` from
`vs`. -/
def wordSelectionCount (vs : List String) (w : String) : Nat :=
  ((Finset.range (2 ^ 32)).filter
    (fun r => (selectRandomElement vs (fun _ => r)).1 = some w)).card

/-- The words of a list up to the first one that is empty or longer than the bound:
the words a feed of the list records. -/
def validPrefix (ws : List String) : List String :=
  ws.takeWhile (fun w => decide (ValidWord w))

/-- A character that is one of the default separators. -/
def isWhitespace (c : Char) : Bool :=
  c = ' ' || c = '\t' || c = '\n' || c = '\r'

/-- The tokens of a character sequence: its non-empty maximal runs of characters that
are not default separators, in order. -/
def tokens (input : List Char) : List String :=
  ((input.splitOnP isWhitespace).filter (fun t => t ≠ [])).map String.mk


/-- A run of 1023 letters: a token of exactly the greatest length `szMarkovMaxWordLength`
allows. -/
def fullLengthToken : List Char := List.replicate 1023 'a'

/-- The word that spells the 32 low bits of `i`, lowest first, with the letters `a`
(bit clear) and `b` (bit set). -/
def distinctWord (i : Nat) : String :=
  String.mk ((List.range 32).map (fun k => if i.testBit k then 'b' else 'a'))

/-- The words `distinctWord 0`, ..., `distinctWord (n - 1)`. -/
def distinctWords (n : Nat) : List String :=
  (List.range n).map distinctWord

/-! ## Selection and the reset walk -/

theorem fitValueWithinRange_zero_le (v mx : Nat) : fitValueWithinRange v 0 mx ≤ mx := by
  unfold fitValueWithinRange
  simp only []
  split_ifs <;> omega

theorem selectIndex_lt (n r : Nat) (h : 0 < n) : selectIndex n r < n := by
  unfold selectIndex
  split
  · exact h
  · have h1 := fitValueWithinRange_zero_le r ((n - 1) % 2 ^ 32)
    have h2 : (n - 1) % 2 ^ 32 ≤ n - 1 := Nat.mod_le _ _
    omega

theorem advanceIterator_eq_get? {K V : Type} (m : List (K × V)) (i : Nat) :
    advanceIterator m i = m.get? i := by
  induction m generalizing i with
  | nil => rfl
  | cons e rest ih =>
    cases i with
    | zero => rfl
    | succ i => simpa [advanceIterator] using ih i

theorem getRandomChild_of_entries_nil (n : MarkovNode) (mt : RandomSource)
    (h : n.entries = []) : n.getRandomChild mt = ((none, none), mt) := by
  obtain ⟨m, c⟩ := n
  cases m with
  | none => rfl
  | some m =>
    simp only [MarkovNode.entries, MarkovNode.pmmnChildren, Option.getD_some] at h
    subst h
    rfl

theorem getRandomChild_of_entries_ne (n : MarkovNode) (mt : RandomSource)
    (h : n.entries ≠ []) :
    ∃ e ∈ n.entries, n.getRandomChild mt = ((some e.1, some e.2), mt.draw.2) := by
  obtain ⟨m, c⟩ := n
  cases m with
  | none => exact absurd rfl h
  | some m =>
    simp only [MarkovNode.entries, MarkovNode.pmmnChildren, Option.getD_some] at h ⊢
    have hlen : 0 < m.length := List.length_pos.mpr h
    have hidx := selectIndex_lt m.length mt.draw.1 hlen
    refine ⟨m.get ⟨_, hidx⟩, List.get_mem _ _ _, ?_⟩
    simp only [MarkovNode.getRandomChild, MarkovNode.pmmnChildren, selectRandomEntry]
    rw [if_neg (by omega), advanceIterator_eq_get?, List.get?_eq_get hidx]

theorem resetLoop_of_entries_nil (n : MarkovNode) (mt : RandomSource) (ms : MarkovWordSequence)
    (h : n.entries = []) : MarkovChain.resetLoop n mt ms = (ms, mt) := by
  rw [MarkovChain.resetLoop]
  have := getRandomChild_of_entries_nil n mt h
  split
  · rename_i heq; rw [this] at heq; simp at heq
  · rename_i heq; rw [this] at heq
    simp only [Prod.mk.injEq] at heq
    obtain ⟨⟨h1, -⟩, h2⟩ := heq
    subst h1; subst h2; rfl

theorem resetLoop_induction (motive : MarkovNode → RandomSource → MarkovWordSequence → Prop)
    (leaf : ∀ n mt ms, n.entries = [] → motive n mt ms)
    (step : ∀ n mt ms e, e ∈ n.entries →
      MarkovChain.resetLoop n mt ms = MarkovChain.resetLoop e.2 mt.draw.2 (ms.addWord e.1) →
      motive e.2 mt.draw.2 (ms.addWord e.1) → motive n mt ms)
    (n : MarkovNode) (mt : RandomSource) (ms : MarkovWordSequence) : motive n mt ms := by
  induction n, mt, ms using MarkovChain.resetLoop.induct with
  | case1 n mt ms w next mt1 h ih =>
    by_cases hn : n.entries = []
    · exact leaf n mt ms hn
    · obtain ⟨e, he, heq⟩ := getRandomChild_of_entries_ne n mt hn
      have hsame : n.getRandomChild mt = ((some e.1, some e.2), mt.draw.2) := heq
      rw [h] at hsame
      simp only [Prod.mk.injEq, Option.some.injEq] at hsame
      obtain ⟨⟨h1, h2⟩, h3⟩ := hsame
      subst h1; subst h2; subst h3
      have hloop2 : MarkovChain.resetLoop n mt ms
          = MarkovChain.resetLoop e.2 mt.draw.2 (ms.addWord e.1) := by
        rw [MarkovChain.resetLoop]
        split
        · rename_i heq2; rw [heq] at heq2
          simp only [Prod.mk.injEq, Option.some.injEq] at heq2
          obtain ⟨⟨h1, h2⟩, h3⟩ := heq2
          subst h1; subst h2; subst h3; rfl
        · rename_i heq2; rw [heq] at heq2; simp at heq2
      exact step n mt ms e he hloop2 ih
  | case2 n mt ms w mt1 h =>
    by_cases hn : n.entries = []
    · exact leaf n mt ms hn
    · obtain ⟨e, he, heq⟩ := getRandomChild_of_entries_ne n mt hn
      rw [h] at heq
      simp at heq

theorem TreeInv_candidates_ok {Q : String → Prop} {k : Nat} {n : MarkovNode}
    (h : TreeInv Q k n) : ∀ x ∈ n.candidates, Q x := by
  cases k with
  | zero => exact h.2
  | succ k => exact h.1

theorem TreeInv_child {Q : String → Prop} {k : Nat} {n : MarkovNode}
    (h : TreeInv Q k n) {e : String × MarkovNode} (he : e ∈ n.entries) :
    ∃ j, k = j + 1 ∧ Q e.1 ∧ TreeInv Q j e.2 := by
  cases k with
  | zero => rw [h.1] at he; simp at he
  | succ k => exact ⟨k, rfl, h.2 e he⟩

theorem TreeInv_mono {Q R : String → Prop} (hQR : ∀ x, Q x → R x) :
    ∀ {k : Nat} {n : MarkovNode}, TreeInv Q k n → TreeInv R k n := by
  intro k
  induction k with
  | zero => intro n h; exact ⟨h.1, fun x hx => hQR x (h.2 x hx)⟩
  | succ k ih =>
    intro n h
    exact ⟨fun x hx => hQR x (h.1 x hx), fun e he => ⟨hQR _ (h.2 e he).1, ih (h.2 e he).2⟩⟩

theorem TreeInv_mono_depth {Q : String → Prop} :
    ∀ {k : Nat} {n : MarkovNode}, TreeInv Q k n → TreeInv Q (k + 1) n := by
  intro k
  induction k with
  | zero =>
    intro n h
    refine ⟨h.2, fun e he => ?_⟩
    rw [h.1] at he
    simp at he
  | succ k ih =>
    intro n h
    exact ⟨h.1, fun e he => ⟨(h.2 e he).1, ih (h.2 e he).2⟩⟩

/-- The window `reset` builds extends the one it starts from by the keys met on the way
down; the walk adds a word when the node has a child, and what it adds respects every
bound that holds of the subtree. -/
theorem resetLoop_spec (n : MarkovNode) (mt : RandomSource) (ms : MarkovWordSequence) :
    ∃ tail, (MarkovChain.resetLoop n mt ms).1.vsWords = ms.vsWords ++ tail ∧
      (n.entries = [] → tail = []) ∧ (n.entries ≠ [] → tail ≠ []) ∧
      ∀ (Q : String → Prop) (k : Nat), TreeInv Q k n → tail.length ≤ k ∧ ∀ w ∈ tail, Q w := by
  induction n, mt, ms using resetLoop_induction with
  | leaf n mt ms hn =>
    refine ⟨[], ?_, fun _ => rfl, fun h => absurd hn h, fun Q k _ => ⟨Nat.zero_le _, ?_⟩⟩
    · rw [resetLoop_of_entries_nil n mt ms hn]; simp
    · intro w hw; simp at hw
  | step n mt ms e he hloop ih =>
    obtain ⟨tail, htail, -, -, hinv⟩ := ih
    refine ⟨e.1 :: tail, ?_, ?_, fun _ => List.cons_ne_nil _ _, fun Q k hk => ?_⟩
    · rw [hloop, htail]; simp [MarkovWordSequence.addWord]
    · intro hn; rw [hn] at he; simp at he
    · obtain ⟨j, hj, hQ, hchild⟩ := TreeInv_child hk he
      obtain ⟨hlen, hall⟩ := hinv Q j hchild
      refine ⟨by simp only [List.length_cons]; omega, ?_⟩
      intro w hw
      rcases List.mem_cons.mp hw with h | h
      · rw [h]; exact hQ
      · exact hall w h

theorem reset_window (c : MarkovChain) :
    ∃ tail, c.reset.2.msCurrentState.vsWords = tail ∧
      (c.mnTreeRoot.entries = [] → tail = []) ∧ (c.mnTreeRoot.entries ≠ [] → tail ≠ []) ∧
      ∀ (Q : String → Prop) (k : Nat), TreeInv Q k c.mnTreeRoot →
        tail.length ≤ k ∧ ∀ w ∈ tail, Q w := by
  obtain ⟨tail, h1, h2, h3, h4⟩ :=
    resetLoop_spec c.mnTreeRoot c.mtRandomSource c.msCurrentState.clearWords
  refine ⟨tail, ?_, h2, h3, h4⟩
  simp only [MarkovWordSequence.clearWords, List.nil_append] at h1
  unfold MarkovChain.reset
  simp only []
  split <;> exact h1

theorem reset_frame (c : MarkovChain) :
    c.reset.2.mnTreeRoot = c.mnTreeRoot ∧ c.reset.2.mcWordCollection = c.mcWordCollection ∧
      c.reset.2.uiDepth = c.uiDepth ∧ c.reset.2.mmOutputMode = c.mmOutputMode := by
  unfold MarkovChain.reset
  simp only []
  split <;> exact ⟨rfl, rfl, rfl, rfl⟩

theorem reset_result (c : MarkovChain) :
    (c.mnTreeRoot.entries = [] → c.reset.1 = .error .MarkovModelEmptyException) ∧
      (c.mnTreeRoot.entries ≠ [] → c.reset.1 = .ok ()) := by
  obtain ⟨tail, h1, h2, h3, -⟩ :=
    resetLoop_spec c.mnTreeRoot c.mtRandomSource c.msCurrentState.clearWords
  simp only [MarkovWordSequence.clearWords, List.nil_append] at h1
  unfold MarkovChain.reset
  simp only [MarkovWordSequence.getWordCount, MarkovWordSequence.clearWords, h1]
  constructor
  · intro h
    rw [h2 h]
    simp
  · intro h
    have := List.length_pos.mpr (h3 h)
    rw [if_neg (by omega)]

theorem getRandomCandidate_cases (n : MarkovNode) (mt : RandomSource) :
    (n.candidates = [] ∧ n.getRandomCandidate mt = (.ok none, mt)) ∨
      ∃ x ∈ n.candidates, n.getRandomCandidate mt = (.ok (some x), mt.draw.2) := by
  obtain ⟨m, c⟩ := n
  cases c with
  | none => exact Or.inl ⟨rfl, rfl⟩
  | some vs =>
    cases vs with
    | nil => exact Or.inl ⟨rfl, rfl⟩
    | cons v vs =>
      right
      have hidx := selectIndex_lt (v :: vs).length mt.draw.1 (by simp)
      refine ⟨(v :: vs).get ⟨_, hidx⟩, List.get_mem _ _ _, ?_⟩
      simp only [MarkovNode.getRandomCandidate, MarkovNode.pvsCandidates, List.isEmpty_cons,
        selectRandomElement]
      rw [if_neg (by simp), if_neg (by simp), List.get?_eq_get hidx]

theorem getLastWord_of_ne_nil (s : MarkovWordSequence) (h : s.vsWords ≠ []) :
    ∃ w, s.vsWords.getLast? = some w ∧ s.getLastWord = .ok w := by
  refine ⟨s.vsWords.getLast h, List.getLast?_eq_getLast _ h, ?_⟩
  unfold MarkovWordSequence.getLastWord MarkovWordSequence.getWordCount
  have := List.length_pos.mpr h
  rw [if_neg (by omega), List.getLastD_eq_getLast?, List.getLast?_eq_getLast _ h]
  rfl

theorem generateWord_of_window_nil (c : MarkovChain) (hw : c.msCurrentState.vsWords = []) :
    (c.mnTreeRoot.entries = [] →
      c.generateWord = ⟨.error .MarkovModelEmptyException, false, c.reset.2⟩) ∧
    (c.mnTreeRoot.entries ≠ [] → c.generateWord = c.reset.2.generateWord) := by
  have hcount : c.msCurrentState.getWordCount < 1 := by
    unfold MarkovWordSequence.getWordCount
    rw [hw]
    decide
  constructor
  · intro h
    have hres := (reset_result c).1 h
    unfold MarkovChain.generateWord
    simp only [if_pos hcount, hres]
  · intro h
    have hres := (reset_result c).2 h
    obtain ⟨tail, htail, -, hne, -⟩ := reset_window c
    have hcount2 : ¬ c.reset.2.msCurrentState.getWordCount < 1 := by
      have := List.length_pos.mpr (hne h)
      unfold MarkovWordSequence.getWordCount
      rw [htail]
      omega
    conv_lhs => unfold MarkovChain.generateWord
    conv_rhs => unfold MarkovChain.generateWord
    simp only [if_pos hcount, if_neg hcount2, hres]

/-! ## C4 and C6 -/

theorem shiftLoop_eq (ws : List String) (k : Nat) :
    MarkovWordSequence.shiftLoop ws k = ws.drop (ws.length - k) := by
  induction ws with
  | nil => simp [MarkovWordSequence.shiftLoop]
  | cons w ws ih =>
    simp only [MarkovWordSequence.shiftLoop]
    split
    · rename_i h
      simp only [List.length_cons] at h ⊢
      rw [ih, show ws.length + 1 - k = (ws.length - k) + 1 by omega, List.drop_succ_cons]
    · rename_i h
      simp only [List.length_cons] at h ⊢
      rw [show ws.length + 1 - k = 0 by omega, List.drop_zero]

/-- The method `addOrShiftWord` keeps the last `uiMaxWordCount` words of the window
followed by the new word. -/
theorem addOrShiftWord_eq (s : MarkovWordSequence) (w : String) (d : Nat) :
    (s.addOrShiftWord w d).vsWords = lastWords d (s.vsWords ++ [w]) := by
  obtain ⟨ws⟩ := s
  simp only [MarkovWordSequence.addOrShiftWord, MarkovWordSequence.getWordCount,
    MarkovWordSequence.shiftToSize, lastWords, shiftLoop_eq]
  split
  · simp [MarkovWordSequence.addWord]
  · rename_i h
    simp only [not_or, not_lt] at h
    obtain ⟨h0, hd⟩ := h
    simp only [MarkovWordSequence.shiftWordIn, MarkovWordSequence.getWordCount,
      MarkovWordSequence.shiftToSize, shiftLoop_eq, MarkovWordSequence.addWord]
    split
    · rename_i h1
      match ws, h1 with
      | [x], _ =>
        have hd1 : d ≤ 1 := by simpa using hd
        interval_cases d <;> simp
    · rename_i h1
      match ws, h0, h1, hd with
      | x :: y :: rest, _, _, hd =>
        simp only [List.length_cons] at hd ⊢
        simp only [show rest.length + 1 + 1 - (rest.length + 1 + 1 - 1) = 1 by omega,
          List.drop_succ_cons, List.drop_zero, List.cons_append]
        generalize hL : y :: (rest ++ [w]) = L
        have hlen : L.length = rest.length + 2 := by rw [← hL]; simp
        rw [List.length_cons, show L.length + 1 - d = (L.length - d) + 1 by omega,
          List.drop_succ_cons]

theorem lastWords_length (k : Nat) (l : List String) : (lastWords k l).length = min l.length k := by
  simp only [lastWords, List.length_drop]
  omega

theorem mem_of_mem_lastWords {k : Nat} {l : List String} {x : String}
    (h : x ∈ lastWords k l) : x ∈ l :=
  List.mem_of_mem_drop h

theorem lastWords_snoc_ne_nil (d : Nat) (hd : 1 ≤ d) (l : List String) (w : String) :
    lastWords d (l ++ [w]) ≠ [] := by
  intro h
  have := congrArg List.length h
  rw [lastWords_length] at this
  simp at this
  omega

theorem mem_lastWords_snoc (d : Nat) (hd : 1 ≤ d) (l : List String) (w : String) :
    w ∈ lastWords d (l ++ [w]) := by
  unfold lastWords
  rw [List.drop_append_of_le_length (by simp; omega)]
  simp

theorem lastWords_lastWords_snoc (d : Nat) (l : List String) (w : String) :
    lastWords d (lastWords d l ++ [w]) = lastWords d (l ++ [w]) := by
  unfold lastWords
  simp only [List.length_append, List.length_drop, List.length_singleton,
    List.drop_append_eq_append_drop, List.drop_drop]
  by_cases h : l.length < d
  · simp only [show l.length - d = 0 by omega, show l.length + 1 - d = 0 by omega,
      Nat.zero_add, Nat.zero_sub, Nat.sub_zero]
  · by_cases h0 : d = 0
    · subst h0
      simp
    · simp only [show l.length - (l.length - d) + 1 - d = 1 by omega,
        show l.length + 1 - d = 1 + (l.length - d) by omega,
        show 1 - (l.length - (l.length - d)) = 0 by omega,
        show 1 + (l.length - d) - l.length = 0 by omega]
      rw [Nat.add_comm]

/-! ## Child maps -/

theorem findEntry_mem {w : String} {m : List (String × MarkovNode)} {n : MarkovNode}
    (h : MarkovNode.findEntry w m = some n) : (w, n) ∈ m := by
  induction m with
  | nil => simp [MarkovNode.findEntry] at h
  | cons e rest ih =>
    obtain ⟨k, x⟩ := e
    simp only [MarkovNode.findEntry] at h
    split at h
    · rename_i hk
      simp only [Option.some.injEq] at h
      subst hk; subst h
      exact List.mem_cons_self _ _
    · exact List.mem_cons_of_mem _ (ih h)

theorem findEntry_insertEntry_self (w : String) (m : List (String × MarkovNode)) :
    MarkovNode.findEntry w (MarkovNode.insertEntry w m)
      = some ((MarkovNode.findEntry w m).getD MarkovNode.new) := by
  induction m with
  | nil => simp [MarkovNode.findEntry, MarkovNode.insertEntry]
  | cons e rest ih =>
    obtain ⟨k, x⟩ := e
    by_cases hk : k = w
    · simp [MarkovNode.findEntry, MarkovNode.insertEntry, hk]
    · simp [MarkovNode.findEntry, MarkovNode.insertEntry, hk, ih]

theorem findEntry_insertEntry_ne {p w : String} (h : p ≠ w) (m : List (String × MarkovNode)) :
    MarkovNode.findEntry p (MarkovNode.insertEntry w m) = MarkovNode.findEntry p m := by
  induction m with
  | nil => simp [MarkovNode.findEntry, MarkovNode.insertEntry, Ne.symm h]
  | cons e rest ih =>
    obtain ⟨k, x⟩ := e
    by_cases hk : k = w
    · simp [MarkovNode.findEntry, MarkovNode.insertEntry, hk]
    · by_cases hp : k = p
      · subst hp
        simp [MarkovNode.findEntry, MarkovNode.insertEntry, h]
      · simp [MarkovNode.findEntry, MarkovNode.insertEntry, hk, hp, ih]

theorem findEntry_updateEntry_self (w : String) (f : MarkovNode → MarkovNode)
    (m : List (String × MarkovNode)) :
    MarkovNode.findEntry w (MarkovNode.updateEntry w f m) = (MarkovNode.findEntry w m).map f := by
  induction m with
  | nil => simp [MarkovNode.findEntry, MarkovNode.updateEntry]
  | cons e rest ih =>
    obtain ⟨k, x⟩ := e
    by_cases hk : k = w
    · simp [MarkovNode.findEntry, MarkovNode.updateEntry, hk]
    · simp [MarkovNode.findEntry, MarkovNode.updateEntry, hk, ih]

theorem findEntry_updateEntry_ne {p w : String} (h : p ≠ w) (f : MarkovNode → MarkovNode)
    (m : List (String × MarkovNode)) :
    MarkovNode.findEntry p (MarkovNode.updateEntry w f m) = MarkovNode.findEntry p m := by
  induction m with
  | nil => simp [MarkovNode.findEntry, MarkovNode.updateEntry]
  | cons e rest ih =>
    obtain ⟨k, x⟩ := e
    by_cases hk : k = w
    · subst hk
      simp [MarkovNode.findEntry, MarkovNode.updateEntry, Ne.symm h]
    · by_cases hp : k = p
      · subst hp
        simp [MarkovNode.findEntry, MarkovNode.updateEntry, h]
      · simp [MarkovNode.findEntry, MarkovNode.updateEntry, hk, hp, ih]

theorem mem_insertEntry {w : String} {m : List (String × MarkovNode)} {e : String × MarkovNode}
    (h : e ∈ MarkovNode.insertEntry w m) : e ∈ m ∨ e = (w, MarkovNode.new) := by
  induction m with
  | nil => simpa [MarkovNode.insertEntry] using h
  | cons a rest ih =>
    obtain ⟨k, x⟩ := a
    simp only [MarkovNode.insertEntry] at h
    split at h
    · exact Or.inl h
    · rcases List.mem_cons.mp h with h1 | h1
      · exact Or.inl (h1 ▸ List.mem_cons_self _ _)
      · rcases ih h1 with h2 | h2
        · exact Or.inl (List.mem_cons_of_mem _ h2)
        · exact Or.inr h2

theorem mem_updateEntry {w : String} {f : MarkovNode → MarkovNode}
    {m : List (String × MarkovNode)} {e : String × MarkovNode}
    (h : e ∈ MarkovNode.updateEntry w f m) : e ∈ m ∨ ∃ x, (w, x) ∈ m ∧ e = (w, f x) := by
  induction m with
  | nil => simp [MarkovNode.updateEntry] at h
  | cons a rest ih =>
    obtain ⟨k, x⟩ := a
    simp only [MarkovNode.updateEntry] at h
    split at h
    · rename_i hk
      rcases List.mem_cons.mp h with h1 | h1
      · exact Or.inr ⟨x, hk ▸ List.mem_cons_self _ _, hk ▸ h1⟩
      · exact Or.inl (List.mem_cons_of_mem _ h1)
    · rcases List.mem_cons.mp h with h1 | h1
      · exact Or.inl (h1 ▸ List.mem_cons_self _ _)
      · rcases ih h1 with h2 | ⟨y, hy, hey⟩
        · exact Or.inl (List.mem_cons_of_mem _ h2)
        · exact Or.inr ⟨y, List.mem_cons_of_mem _ hy, hey⟩

theorem entries_resolveChild (n : MarkovNode) (w : String) :
    (n.resolveChild w).entries = MarkovNode.insertEntry w n.entries := by
  obtain ⟨m, c⟩ := n
  cases m <;> rfl

theorem candidates_resolveChild (n : MarkovNode) (w : String) :
    (n.resolveChild w).candidates = n.candidates := by
  obtain ⟨m, c⟩ := n
  cases m <;> rfl

theorem entries_updateChild (n : MarkovNode) (w : String) (f : MarkovNode → MarkovNode) :
    (n.updateChild w f).entries = MarkovNode.updateEntry w f n.entries := by
  obtain ⟨m, c⟩ := n
  cases m <;> rfl

theorem candidates_updateChild (n : MarkovNode) (w : String) (f : MarkovNode → MarkovNode) :
    (n.updateChild w f).candidates = n.candidates := by
  obtain ⟨m, c⟩ := n
  cases m <;> rfl

theorem entries_addCandidate (n : MarkovNode) (x : String) :
    (n.addCandidate x).entries = n.entries := by
  obtain ⟨m, c⟩ := n
  cases c <;> rfl

theorem candidates_addCandidate (n : MarkovNode) (x : String) :
    (n.addCandidate x).candidates = n.candidates ++ [x] := by
  obtain ⟨m, c⟩ := n
  cases c <;> rfl

theorem findChild_eq (n : MarkovNode) (w : String) :
    n.findChild w = MarkovNode.findEntry w n.entries := by
  obtain ⟨m, c⟩ := n
  cases m <;> rfl

/-! ## Paths in the tree -/

theorem findChild_resolveChild_self (n : MarkovNode) (w : String) :
    (n.resolveChild w).findChild w = some ((n.findChild w).getD MarkovNode.new) := by
  rw [findChild_eq, findChild_eq, entries_resolveChild, findEntry_insertEntry_self]

theorem findChild_resolveChild_ne (n : MarkovNode) {p w : String} (h : p ≠ w) :
    (n.resolveChild w).findChild p = n.findChild p := by
  rw [findChild_eq, findChild_eq, entries_resolveChild, findEntry_insertEntry_ne h]

theorem findChild_updateChild_self (n : MarkovNode) (w : String) (f : MarkovNode → MarkovNode) :
    (n.updateChild w f).findChild w = (n.findChild w).map f := by
  rw [findChild_eq, findChild_eq, entries_updateChild, findEntry_updateEntry_self]

theorem findChild_updateChild_ne (n : MarkovNode) {p w : String} (h : p ≠ w)
    (f : MarkovNode → MarkovNode) : (n.updateChild w f).findChild p = n.findChild p := by
  rw [findChild_eq, findChild_eq, entries_updateChild, findEntry_updateEntry_ne h]

theorem findChild_addCandidate (n : MarkovNode) (x p : String) :
    (n.addCandidate x).findChild p = n.findChild p := by
  rw [findChild_eq, findChild_eq, entries_addCandidate]

theorem findChild_resolvePath_head (n : MarkovNode) (w : String) (ws : List String) :
    (MarkovNode.resolvePath (w :: ws) n).findChild w
      = some (MarkovNode.resolvePath ws ((n.findChild w).getD MarkovNode.new)) := by
  simp only [MarkovNode.resolvePath, findChild_updateChild_self, findChild_resolveChild_self,
    Option.map_some']

theorem findChild_resolvePath_ne (n : MarkovNode) {p w : String} (h : p ≠ w) (ws : List String) :
    (MarkovNode.resolvePath (w :: ws) n).findChild p = n.findChild p := by
  simp only [MarkovNode.resolvePath, findChild_updateChild_ne _ h, findChild_resolveChild_ne _ h]

theorem candidates_resolvePath (ws : List String) (n : MarkovNode) :
    (MarkovNode.resolvePath ws n).candidates = n.candidates := by
  cases ws with
  | nil => rfl
  | cons w ws =>
    simp only [MarkovNode.resolvePath, candidates_updateChild, candidates_resolveChild]

theorem candidatesAt_nil (n : MarkovNode) : MarkovNode.candidatesAt [] n = n.candidates := rfl

theorem candidatesAt_cons (w : String) (ws : List String) (n : MarkovNode) :
    MarkovNode.candidatesAt (w :: ws) n
      = match n.findChild w with
        | some ch => MarkovNode.candidatesAt ws ch
        | none => [] := by
  simp only [MarkovNode.candidatesAt, MarkovNode.nodeAt]
  cases n.findChild w <;> rfl

theorem candidatesAt_new (path : List String) : MarkovNode.candidatesAt path MarkovNode.new = [] := by
  cases path <;> rfl

/-- Creating the nodes of a path adds no candidate anywhere. -/
theorem candidatesAt_resolvePath (ws : List String) :
    ∀ (path : List String) (n : MarkovNode),
      MarkovNode.candidatesAt path (MarkovNode.resolvePath ws n) = MarkovNode.candidatesAt path n := by
  induction ws with
  | nil => intro path n; rfl
  | cons w ws ih =>
    intro path n
    cases path with
    | nil => rw [candidatesAt_nil, candidatesAt_nil, candidates_resolvePath]
    | cons p path =>
      rw [candidatesAt_cons, candidatesAt_cons]
      by_cases hp : p = w
      · subst hp
        rw [findChild_resolvePath_head]
        simp only [ih]
        cases n.findChild p with
        | none => simp [candidatesAt_new]
        | some ch => simp
      · rw [findChild_resolvePath_ne _ hp]

/-- After the nodes of a path have been created, the path leads to a node. -/
theorem nodeAt_resolvePath_self (ws : List String) :
    ∀ n : MarkovNode, ((MarkovNode.resolvePath ws n).nodeAt ws).isSome := by
  induction ws with
  | nil => intro n; rfl
  | cons w ws ih =>
    intro n
    simp only [MarkovNode.nodeAt, findChild_resolvePath_head]
    exact ih _

/-- Creating the nodes of a path removes no node. -/
theorem nodeAt_resolvePath_mono (ws : List String) :
    ∀ (path : List String) (n : MarkovNode), (n.nodeAt path).isSome →
      ((MarkovNode.resolvePath ws n).nodeAt path).isSome := by
  induction ws with
  | nil => intro path n h; exact h
  | cons w ws ih =>
    intro path n h
    cases path with
    | nil => rfl
    | cons p path =>
      simp only [MarkovNode.nodeAt] at h ⊢
      by_cases hp : p = w
      · subst hp
        rw [findChild_resolvePath_head]
        cases hc : n.findChild p with
        | none => rw [hc] at h; simp at h
        | some ch =>
          rw [hc] at h
          exact ih path ch h
      · rw [findChild_resolvePath_ne _ hp]
        exact h

/-- Adding a candidate at the node of an existing path appends it to the candidate list
of that node and changes no other list. -/
theorem candidatesAt_updateAt_addCandidate (x : String) (ws : List String) :
    ∀ (path : List String) (n : MarkovNode), (n.nodeAt ws).isSome →
      MarkovNode.candidatesAt path (n.updateAt (fun y => y.addCandidate x) ws)
        = MarkovNode.candidatesAt path n ++ (if path = ws then [x] else []) := by
  induction ws with
  | nil =>
    intro path n _
    cases path with
    | nil => simp [MarkovNode.updateAt, candidatesAt_nil, candidates_addCandidate]
    | cons p path =>
      simp [MarkovNode.updateAt, candidatesAt_cons, findChild_addCandidate]
  | cons w ws ih =>
    intro path n h
    cases path with
    | nil => simp [MarkovNode.updateAt, candidatesAt_nil, candidates_updateChild]
    | cons p path =>
      simp only [MarkovNode.updateAt, candidatesAt_cons]
      simp only [MarkovNode.nodeAt] at h
      by_cases hp : p = w
      · subst hp
        rw [findChild_updateChild_self]
        cases hc : n.findChild p with
        | none => rw [hc] at h; simp at h
        | some ch =>
          rw [hc] at h
          simp only [Option.map_some', ih path ch h, List.cons.injEq, true_and]
      · rw [findChild_updateChild_ne _ hp]
        simp [hp]

/-- Adding a candidate removes no node and creates none. -/
theorem nodeAt_updateAt_addCandidate (x : String) (ws : List String) :
    ∀ (path : List String) (n : MarkovNode),
      ((n.updateAt (fun y => y.addCandidate x) ws).nodeAt path).isSome = (n.nodeAt path).isSome := by
  induction ws with
  | nil =>
    intro path n
    cases path with
    | nil => rfl
    | cons p path => simp [MarkovNode.updateAt, MarkovNode.nodeAt, findChild_addCandidate]
  | cons w ws ih =>
    intro path n
    cases path with
    | nil => rfl
    | cons p path =>
      simp only [MarkovNode.updateAt, MarkovNode.nodeAt]
      by_cases hp : p = w
      · subst hp
        rw [findChild_updateChild_self]
        cases hc : n.findChild p with
        | none => rfl
        | some ch => simp only [Option.map_some', ih path ch]
      · rw [findChild_updateChild_ne _ hp]

/-! ## Bounds that hold of the whole tree -/

theorem TreeInv_new (Q : String → Prop) (k : Nat) : TreeInv Q k MarkovNode.new := by
  cases k with
  | zero => exact ⟨rfl, fun x hx => by simp [MarkovNode.new, MarkovNode.candidates,
      MarkovNode.pvsCandidates] at hx⟩
  | succ k =>
    refine ⟨fun x hx => ?_, fun e he => ?_⟩
    · simp [MarkovNode.new, MarkovNode.candidates, MarkovNode.pvsCandidates] at hx
    · simp [MarkovNode.new, MarkovNode.entries, MarkovNode.pmmnChildren] at he

theorem TreeInv_resolvePath {Q : String → Prop} (ws : List String) :
    ∀ (k : Nat) (n : MarkovNode), TreeInv Q k n → (∀ w ∈ ws, Q w) → ws.length ≤ k →
      TreeInv Q k (MarkovNode.resolvePath ws n) := by
  induction ws with
  | nil => intro k n h _ _; exact h
  | cons w ws ih =>
    intro k n h hQ hlen
    cases k with
    | zero => simp at hlen
    | succ k =>
      have hws : ∀ x ∈ ws, Q x := fun x hx => hQ x (List.mem_cons_of_mem _ hx)
      have hk : ws.length ≤ k := by simpa using hlen
      refine ⟨?_, fun e he => ?_⟩
      · rw [candidates_resolvePath]; exact h.1
      · simp only [MarkovNode.resolvePath, entries_updateChild, entries_resolveChild] at he
        have hins : ∀ e ∈ MarkovNode.insertEntry w n.entries, Q e.1 ∧ TreeInv Q k e.2 := by
          intro e he
          rcases mem_insertEntry he with h1 | h1
          · exact h.2 e h1
          · rw [h1]; exact ⟨hQ w (List.mem_cons_self _ _), TreeInv_new Q k⟩
        rcases mem_updateEntry he with h1 | ⟨x, hx, hex⟩
        · exact hins e h1
        · rw [hex]
          exact ⟨(hins _ hx).1, ih k x (hins _ hx).2 hws hk⟩

theorem TreeInv_updateAt_addCandidate {Q : String → Prop} {x : String} (hx : Q x)
    (ws : List String) :
    ∀ (k : Nat) (n : MarkovNode), TreeInv Q k n →
      TreeInv Q k (n.updateAt (fun y => y.addCandidate x) ws) := by
  have hcand : ∀ n : MarkovNode, (∀ y ∈ n.candidates, Q y) →
      ∀ y ∈ (n.addCandidate x).candidates, Q y := by
    intro n hn y hy
    rw [candidates_addCandidate] at hy
    rcases List.mem_append.mp hy with h1 | h1
    · exact hn y h1
    · rw [List.mem_singleton.mp h1]; exact hx
  induction ws with
  | nil =>
    intro k n h
    cases k with
    | zero => exact ⟨by simp only [MarkovNode.updateAt, entries_addCandidate]; exact h.1,
        hcand n h.2⟩
    | succ k =>
      refine ⟨hcand n h.1, fun e he => ?_⟩
      simp only [MarkovNode.updateAt, entries_addCandidate] at he
      exact h.2 e he
  | cons w ws ih =>
    intro k n h
    cases k with
    | zero =>
      refine ⟨?_, ?_⟩
      · simp only [MarkovNode.updateAt, entries_updateChild, h.1, MarkovNode.updateEntry]
      · simp only [MarkovNode.updateAt, candidates_updateChild]; exact h.2
    | succ k =>
      refine ⟨?_, fun e he => ?_⟩
      · simp only [MarkovNode.updateAt, candidates_updateChild]; exact h.1
      · simp only [MarkovNode.updateAt, entries_updateChild] at he
        rcases mem_updateEntry he with h1 | ⟨y, hy, hey⟩
        · exact h.2 e h1
        · rw [hey]
          exact ⟨(h.2 _ hy).1, ih k y (h.2 _ hy).2⟩

/-! ## The word collection -/

theorem resolveWords_fst (ws : List String) :
    ∀ wc : MarkovWordCollection, (MarkovChain.resolveWords ws wc).1 = ws := by
  induction ws with
  | nil => intro wc; rfl
  | cons w ws ih =>
    intro wc
    simp only [MarkovChain.resolveWords, ih, MarkovWordCollection.resolveWord]

theorem mem_resolveWord (wc : MarkovWordCollection) (w x : String) :
    x ∈ (wc.resolveWord w).2.ssWords ↔ x ∈ wc.ssWords ∨ x = w := by
  unfold MarkovWordCollection.resolveWord
  by_cases h : w ∈ wc.ssWords
  · simp only [if_pos h]
    constructor
    · exact Or.inl
    · rintro (h1 | h1)
      · exact h1
      · rw [h1]; exact h
  · simp only [if_neg h, List.mem_append, List.mem_singleton]

theorem nodup_resolveWord (wc : MarkovWordCollection) (w : String) (h : wc.ssWords.Nodup) :
    (wc.resolveWord w).2.ssWords.Nodup := by
  unfold MarkovWordCollection.resolveWord
  by_cases hw : w ∈ wc.ssWords
  · simp only [if_pos hw]; exact h
  · simp only [if_neg hw]
    exact List.Nodup.append h (List.nodup_singleton w)
      (by intro a ha hb; rw [List.mem_singleton.mp hb] at ha; exact hw ha)

theorem resolveWord_of_mem (wc : MarkovWordCollection) (w : String) (h : w ∈ wc.ssWords) :
    (wc.resolveWord w).2 = wc := by
  unfold MarkovWordCollection.resolveWord
  simp only [if_pos h]

theorem mem_resolveWords (ws : List String) :
    ∀ (wc : MarkovWordCollection) (x : String),
      x ∈ (MarkovChain.resolveWords ws wc).2.ssWords ↔ x ∈ wc.ssWords ∨ x ∈ ws := by
  induction ws with
  | nil => intro wc x; simp [MarkovChain.resolveWords]
  | cons w ws ih =>
    intro wc x
    simp only [MarkovChain.resolveWords, ih, mem_resolveWord, List.mem_cons]
    tauto

theorem nodup_resolveWords (ws : List String) :
    ∀ wc : MarkovWordCollection, wc.ssWords.Nodup →
      (MarkovChain.resolveWords ws wc).2.ssWords.Nodup := by
  induction ws with
  | nil => intro wc h; exact h
  | cons w ws ih =>
    intro wc h
    simp only [MarkovChain.resolveWords]
    exact ih _ (nodup_resolveWord wc w h)

theorem matchWindow_collection_of_subset (ws : List String) :
    ∀ (n : MarkovNode) (wc : MarkovWordCollection), (∀ w ∈ ws, w ∈ wc.ssWords) →
      (MarkovChain.matchWindow ws n wc).2 = wc := by
  induction ws with
  | nil => intro n wc _; rfl
  | cons w ws ih =>
    intro n wc h
    have hw := resolveWord_of_mem wc w (h w (List.mem_cons_self _ _))
    simp only [MarkovChain.matchWindow, hw]
    split
    · rfl
    · exact ih _ wc (fun x hx => h x (List.mem_cons_of_mem _ hx))

theorem matchWindow_candidates_ok {Q : String → Prop} (ws : List String) :
    ∀ (k : Nat) (n : MarkovNode) (wc : MarkovWordCollection), TreeInv Q k n →
      ∀ x ∈ (MarkovChain.matchWindow ws n wc).1.candidates, Q x := by
  induction ws with
  | nil => intro k n wc h; exact TreeInv_candidates_ok h
  | cons w ws ih =>
    intro k n wc h
    simp only [MarkovChain.matchWindow]
    split
    · exact TreeInv_candidates_ok h
    · rename_i ch hch
      simp only [MarkovWordCollection.resolveWord, findChild_eq] at hch
      obtain ⟨j, -, -, hj⟩ := TreeInv_child h (findEntry_mem hch)
      exact ih j ch _ hj

/-! ## The shape of `generateWord` and of the loop of `feedModel` -/

/-- The chain a `generateWord` call leaves behind when it starts on a non-empty window:
the collection has gone through the matching loop, and then nothing else changed, or
the chain was re-seeded, or a candidate of the matched node was shifted in. -/
theorem generateWord_chain_of_ne (c : MarkovChain) (hw : c.msCurrentState.vsWords ≠ []) :
    c.generateWord.chain = { c with
        mcWordCollection := (MarkovChain.matchWindow c.msCurrentState.vsWords
          c.mnTreeRoot c.mcWordCollection).2 } ∨
    c.generateWord.chain = (MarkovChain.reset { c with
        mcWordCollection := (MarkovChain.matchWindow c.msCurrentState.vsWords
          c.mnTreeRoot c.mcWordCollection).2 }).2 ∨
    ∃ x ∈ (MarkovChain.matchWindow c.msCurrentState.vsWords c.mnTreeRoot
        c.mcWordCollection).1.candidates,
      c.generateWord.chain = { c with
        mcWordCollection := (MarkovChain.matchWindow c.msCurrentState.vsWords
          c.mnTreeRoot c.mcWordCollection).2
        mtRandomSource := c.mtRandomSource.draw.2
        msCurrentState := c.msCurrentState.addOrShiftWord x c.uiDepth } := by
  obtain ⟨d, mode, root, wc, ms, mt⟩ := c
  simp only at hw ⊢
  obtain ⟨w, -, hget⟩ := getLastWord_of_ne_nil ms hw
  have hcount : ¬ ms.getWordCount < 1 := by
    have := List.length_pos.mpr hw
    unfold MarkovWordSequence.getWordCount
    omega
  cases mode with
  | MARKOV_MODE_PROBABLE =>
    left
    unfold MarkovChain.generateWord
    simp only [if_neg hcount, hget, MarkovWordSequence.getWords]
    rfl
  | MARKOV_MODE_RANDOM =>
    rcases getRandomCandidate_cases (MarkovChain.matchWindow ms.vsWords root wc).1 mt with
      ⟨-, hsel⟩ | ⟨x, hx, hsel⟩
    · right; left
      unfold MarkovChain.generateWord
      simp only [if_neg hcount, hget, MarkovWordSequence.getWords, hsel, if_true]
      split <;> rfl
    · right; right
      refine ⟨x, hx, ?_⟩
      unfold MarkovChain.generateWord
      simp only [if_neg hcount, hget, MarkovWordSequence.getWords, hsel]

/-- A property of chains kept by `reset`, by the matching loop and by shifting in a
candidate of the matched node is kept by `generateWord`. -/
theorem generateWord_preserves (P : MarkovChain → Prop)
    (hreset : ∀ c, P c → P c.reset.2)
    (hwalk : ∀ c : MarkovChain, P c → P { c with
      mcWordCollection := (MarkovChain.matchWindow c.msCurrentState.vsWords
        c.mnTreeRoot c.mcWordCollection).2 })
    (hshift : ∀ (c : MarkovChain) (x : String), P c →
      x ∈ (MarkovChain.matchWindow c.msCurrentState.vsWords c.mnTreeRoot
        c.mcWordCollection).1.candidates →
      P { c with
        mcWordCollection := (MarkovChain.matchWindow c.msCurrentState.vsWords
          c.mnTreeRoot c.mcWordCollection).2
        mtRandomSource := c.mtRandomSource.draw.2
        msCurrentState := c.msCurrentState.addOrShiftWord x c.uiDepth })
    (c : MarkovChain) (h : P c) : P c.generateWord.chain := by
  have hne : ∀ c : MarkovChain, P c → c.msCurrentState.vsWords ≠ [] →
      P c.generateWord.chain := by
    intro c hc hw
    rcases generateWord_chain_of_ne c hw with h1 | h1 | ⟨x, hx, h1⟩
    · rw [h1]; exact hwalk c hc
    · rw [h1]; exact hreset _ (hwalk c hc)
    · rw [h1]; exact hshift c x hc hx
  by_cases hw : c.msCurrentState.vsWords = []
  · by_cases hroot : c.mnTreeRoot.entries = []
    · rw [(generateWord_of_window_nil c hw).1 hroot]
      exact hreset c h
    · rw [(generateWord_of_window_nil c hw).2 hroot]
      obtain ⟨tail, htail, -, hnil, -⟩ := reset_window c
      exact hne _ (hreset c h) (by rw [htail]; exact hnil hroot)
  · exact hne c h hw

/-- A property of the loop state kept by the two halves of a round is kept by the whole
loop of `feedModel`, whatever the supply holds. -/
theorem feedLoop_preserves (d : Nat) (P : MarkovChain.FeedState → Prop)
    (hres : ∀ st, P st → P (MarkovChain.feedResolve st))
    (hrec : ∀ st w, w ≠ "" → P st → P (MarkovChain.feedRecord d st w)) :
    ∀ (ws : List String) (st : MarkovChain.FeedState), P st →
      P (MarkovChain.feedLoop d ws st).2 := by
  intro ws
  induction ws with
  | nil =>
    intro st h
    simp only [MarkovChain.feedLoop, StaticMarkovWordSource.getNextWord]
    exact hres st h
  | cons w ws ih =>
    intro st h
    simp only [MarkovChain.feedLoop, StaticMarkovWordSource.getNextWord]
    by_cases hlen : w.length > szMarkovMaxWordLength
    · simp only [if_pos hlen]
      exact hres st h
    · simp only [if_neg hlen]
      by_cases hw : w = ""
      · simp only [if_pos hw]
        exact hres st h
      · simp only [if_neg hw]
        exact ih _ (hrec _ w hw (hres st h))

/-! ## The invariant of reachable chains -/

theorem StoredWord_mono {wc wc1 : MarkovWordCollection}
    (h : ∀ x ∈ wc.ssWords, x ∈ wc1.ssWords) : ∀ x, StoredWord wc x → StoredWord wc1 x :=
  fun x hx => ⟨hx.1, h x hx.2⟩

theorem FeedInv_feedResolve (d : Nat) (wc0 : MarkovWordCollection) (st : MarkovChain.FeedState)
    (h : FeedInv d wc0 st) : FeedInv d wc0 (MarkovChain.feedResolve st) := by
  obtain ⟨htree, hlen, hne, hsub, hnodup⟩ := h
  unfold MarkovChain.feedResolve
  split
  · have hgrow : ∀ x ∈ st.mcWordCollection.ssWords,
        x ∈ (MarkovChain.resolveWords st.mwCurrentSequence.getWords
          st.mcWordCollection).2.ssWords :=
      fun x hx => (mem_resolveWords _ _ x).mpr (Or.inl hx)
    refine ⟨?_, hlen, hne, fun x hx => hgrow x (hsub x hx), nodup_resolveWords _ _ hnodup⟩
    simp only [resolveWords_fst]
    refine TreeInv_resolvePath _ _ _ (TreeInv_mono (StoredWord_mono hgrow) htree) ?_ hlen
    intro w hw
    exact ⟨hne w hw, (mem_resolveWords _ _ w).mpr (Or.inr hw)⟩
  · exact ⟨htree, hlen, hne, hsub, hnodup⟩

theorem FeedInv_feedRecord (d : Nat) (wc0 : MarkovWordCollection) (st : MarkovChain.FeedState)
    (w : String) (hw : w ≠ "") (h : FeedInv d wc0 st) :
    FeedInv d wc0 (MarkovChain.feedRecord d st w) := by
  obtain ⟨htree, hlen, hne, hsub, hnodup⟩ := h
  have hwinlen : (st.mwCurrentSequence.addOrShiftWord w d).vsWords.length ≤ d := by
    rw [addOrShiftWord_eq, lastWords_length]
    exact Nat.min_le_right _ _
  have hwinne : ∀ x ∈ (st.mwCurrentSequence.addOrShiftWord w d).vsWords, x ≠ "" := by
    intro x hx
    rw [addOrShiftWord_eq] at hx
    rcases List.mem_append.mp (mem_of_mem_lastWords hx) with h1 | h1
    · exact hne x h1
    · rw [List.mem_singleton.mp h1]; exact hw
  unfold MarkovChain.feedRecord
  split
  · have hgrow : ∀ x ∈ st.mcWordCollection.ssWords,
        x ∈ (st.mcWordCollection.resolveWord w).2.ssWords :=
      fun x hx => (mem_resolveWord _ _ x).mpr (Or.inl hx)
    refine ⟨?_, hwinlen, hwinne, fun x hx => hgrow x (hsub x hx),
      nodup_resolveWord _ _ hnodup⟩
    refine TreeInv_updateAt_addCandidate ?_ _ _ _ (TreeInv_mono (StoredWord_mono hgrow) htree)
    exact ⟨hw, (mem_resolveWord _ _ _).mpr (Or.inr rfl)⟩
  · exact ⟨htree, hwinlen, hwinne, hsub, hnodup⟩

theorem ChainInv_new (d : Nat) (seed : RandomSource) : ChainInv (MarkovChain.new d seed) := by
  refine ⟨TreeInv_new _ _, ?_, Nat.zero_le _, List.nodup_nil⟩
  intro w hw
  simp [MarkovChain.new, MarkovWordSequence.new] at hw

theorem feedModel_frame (c : MarkovChain) (src : StaticMarkovWordSource) :
    (c.feedModel src).chain.msCurrentState = c.msCurrentState ∧
    (c.feedModel src).chain.uiDepth = c.uiDepth ∧
    (c.feedModel src).chain.mmOutputMode = c.mmOutputMode ∧
    (c.feedModel src).chain.mtRandomSource = c.mtRandomSource :=
  ⟨rfl, rfl, rfl, rfl⟩

theorem ChainInv_feedModel (c : MarkovChain) (src : StaticMarkovWordSource) (h : ChainInv c) :
    ChainInv (c.feedModel src).chain := by
  obtain ⟨htree, hwin, hlen, hnodup⟩ := h
  have hinv := feedLoop_preserves c.uiDepth (FeedInv c.uiDepth c.mcWordCollection)
    (FeedInv_feedResolve _ _) (FeedInv_feedRecord _ _) src.remaining
    { mnTreeRoot := c.mnTreeRoot
      mcWordCollection := c.mcWordCollection
      mwCurrentSequence := MarkovWordSequence.new c.uiDepth
      pmnCurrentNode := none
      uiProcessedWordCount := 0 }
    ⟨htree, Nat.zero_le _, by intro w hw; simp [MarkovWordSequence.new] at hw,
      fun x hx => hx, hnodup⟩
  obtain ⟨h1, -, -, h4, h5⟩ := hinv
  exact ⟨h1, fun w hw => StoredWord_mono h4 w (hwin w hw), hlen, h5⟩

theorem ChainInv_reset (c : MarkovChain) (h : ChainInv c) : ChainInv c.reset.2 := by
  obtain ⟨htree, hwin, hlen, hnodup⟩ := h
  obtain ⟨hr, hc, hd, -⟩ := reset_frame c
  obtain ⟨tail, htail, -, -, hall⟩ := reset_window c
  obtain ⟨h1, h2⟩ := hall _ _ htree
  refine ⟨by rw [hr, hc, hd]; exact htree, ?_, by rw [htail, hd]; exact h1,
    by rw [hc]; exact hnodup⟩
  rw [htail, hc]
  exact h2

theorem ChainInv_matchWindow (c : MarkovChain) (h : ChainInv c) :
    (MarkovChain.matchWindow c.msCurrentState.vsWords c.mnTreeRoot c.mcWordCollection).2
      = c.mcWordCollection :=
  matchWindow_collection_of_subset _ _ _ (fun w hw => (h.2.1 w hw).2)

theorem ChainInv_shift (c : MarkovChain) (x : String) (hc : ChainInv c)
    (hx : x ∈ (MarkovChain.matchWindow c.msCurrentState.vsWords c.mnTreeRoot
      c.mcWordCollection).1.candidates) :
    ChainInv { c with
      mcWordCollection := (MarkovChain.matchWindow c.msCurrentState.vsWords
        c.mnTreeRoot c.mcWordCollection).2
      mtRandomSource := c.mtRandomSource.draw.2
      msCurrentState := c.msCurrentState.addOrShiftWord x c.uiDepth } := by
  rw [ChainInv_matchWindow c hc]
  obtain ⟨htree, hwin, hlen, hnodup⟩ := hc
  have hxs := matchWindow_candidates_ok _ _ _ c.mcWordCollection htree x hx
  refine ⟨htree, ?_, ?_, hnodup⟩
  · intro w hw
    simp only [addOrShiftWord_eq] at hw
    rcases List.mem_append.mp (mem_of_mem_lastWords hw) with h1 | h1
    · exact hwin w h1
    · rw [List.mem_singleton.mp h1]; exact hxs
  · simp only [addOrShiftWord_eq, lastWords_length]
    exact Nat.min_le_right _ _

theorem ChainInv_generateWord (c : MarkovChain) (h : ChainInv c) :
    ChainInv c.generateWord.chain := by
  refine generateWord_preserves ChainInv ChainInv_reset ?_ ChainInv_shift c h
  intro c hc
  rw [ChainInv_matchWindow c hc]
  exact hc

theorem ChainInv_run (call : ChainCall) (c : MarkovChain) (h : ChainInv c) :
    ChainInv (call.run c) := by
  cases call with
  | feedModel ws => exact ChainInv_feedModel c _ h
  | reset => exact ChainInv_reset c h
  | generateWord => exact ChainInv_generateWord c h
  | setOutputMode m => exact h

theorem ChainInv_runCalls (calls : List ChainCall) :
    ∀ c : MarkovChain, ChainInv c → ChainInv (runCalls calls c) := by
  induction calls with
  | nil => intro c h; exact h
  | cons call calls ih =>
    intro c h
    exact ih _ (ChainInv_run call c h)

theorem window_feedResolve (st : MarkovChain.FeedState) :
    (MarkovChain.feedResolve st).mwCurrentSequence = st.mwCurrentSequence := by
  unfold MarkovChain.feedResolve
  split <;> rfl

theorem window_feedRecord (d : Nat) (st : MarkovChain.FeedState) (w : String) :
    (MarkovChain.feedRecord d st w).mwCurrentSequence
      = st.mwCurrentSequence.addOrShiftWord w d := by
  unfold MarkovChain.feedRecord
  split <;> rfl

/-- The loop of `feedModel` run on valid words: it ends without an exception, having
recorded every word in turn and then resolved the last window. -/
theorem feedLoop_valid (d : Nat) (ws : List String) (hvalid : ∀ w ∈ ws, ValidWord w) :
    ∀ st : MarkovChain.FeedState, MarkovChain.feedLoop d ws st
      = (.ok (), MarkovChain.feedResolve (MarkovChain.feedRounds d st ws)) := by
  induction ws with
  | nil =>
    intro st
    simp only [MarkovChain.feedLoop, StaticMarkovWordSource.getNextWord,
      MarkovChain.feedRounds, List.foldl_nil]
  | cons w ws ih =>
    intro st
    obtain ⟨hne, hlen⟩ := hvalid w (List.mem_cons_self _ _)
    simp only [MarkovChain.feedLoop, StaticMarkovWordSource.getNextWord,
      MarkovChain.feedRounds, List.foldl_cons, if_neg (Nat.not_lt.mpr hlen), if_neg hne]
    exact ih (fun x hx => hvalid x (List.mem_cons_of_mem _ hx)) _

/-- The local window of `feedModel` after the words `pre` have been recorded. -/
theorem window_foldl_feed (d : Nat) (pre : List String) (st : MarkovChain.FeedState) :
    (MarkovChain.feedRounds d st pre).mwCurrentSequence.vsWords
      = lastWords d (st.mwCurrentSequence.vsWords ++ pre) ∨ pre = [] := by
  induction pre using List.reverseRecOn with
  | nil => exact Or.inr rfl
  | append_singleton pre w ih =>
    left
    unfold MarkovChain.feedRounds at ih ⊢
    rw [List.foldl_append, List.foldl_cons, List.foldl_nil, window_feedRecord,
      addOrShiftWord_eq, window_feedResolve]
    rcases ih with h | h
    · rw [h, lastWords_lastWords_snoc, List.append_assoc]
    · subst h
      simp

theorem lastWords_min (k : Nat) (l : List String) :
    lastWords (min l.length k) l = lastWords k l := by
  unfold lastWords
  congr 1
  omega

theorem windowAt_length (d : Nat) (ws : List String) :
    windowAt d ws ws.length = lastWords d ws := by
  unfold windowAt
  rw [List.take_length]
  exact lastWords_min d ws

theorem windowAt_append (d : Nat) (pre s : List String) (i : Nat) (h : i ≤ pre.length) :
    windowAt d (pre ++ s) i = windowAt d pre i := by
  unfold windowAt
  rw [List.take_append_of_le_length h]

theorem expectedCandidates_snoc (d : Nat) (pre : List String) (w : String)
    (path : List String) :
    expectedCandidates d (pre ++ [w]) path
      = expectedCandidates d pre path
        ++ (if pre ≠ [] ∧ lastWords d pre = path then [w] else []) := by
  unfold expectedCandidates
  rw [List.length_append, List.length_singleton, List.range_succ, List.filterMap_append]
  congr 1
  · apply List.filterMap_congr
    intro i hi
    have hlt : i < pre.length := List.mem_range.mp hi
    rw [windowAt_append d pre [w] i (Nat.le_of_lt hlt), List.getElem?_append_left hlt]
  · simp only [List.filterMap_cons, List.filterMap_nil]
    rw [windowAt_append d pre [w] pre.length (Nat.le_refl _), windowAt_length]
    have hget : (pre ++ [w])[pre.length]? = some w := by simp
    have hiff : (1 ≤ pre.length) ↔ pre ≠ [] := by
      rw [Nat.one_le_iff_ne_zero, ne_eq, List.length_eq_zero]
    by_cases h : pre ≠ [] ∧ lastWords d pre = path
    · rw [if_pos h, if_pos ⟨hiff.mpr h.1, h.2⟩, hget]
    · rw [if_neg h, if_neg (fun hh => h ⟨hiff.mp hh.1, hh.2⟩)]

theorem expectedCandidates_nil (d : Nat) (path : List String) :
    expectedCandidates d [] path = [] := rfl

/-! ## The tree a single feed builds -/

theorem feedRounds_snoc (d : Nat) (st : MarkovChain.FeedState) (pre : List String) (w : String) :
    MarkovChain.feedRounds d st (pre ++ [w])
      = MarkovChain.feedRecord d (MarkovChain.feedResolve (MarkovChain.feedRounds d st pre)) w := by
  simp only [MarkovChain.feedRounds, List.foldl_append, List.foldl_cons, List.foldl_nil]

theorem feedModel_valid (c : MarkovChain) (ws : List String) (hvalid : ∀ w ∈ ws, ValidWord w) :
    (c.feedModel (StaticMarkovWordSource.new ws)).result = .ok () ∧
    (c.feedModel (StaticMarkovWordSource.new ws)).chain.mnTreeRoot
      = (MarkovChain.feedResolve (MarkovChain.feedRounds c.uiDepth c.feedStart ws)).mnTreeRoot ∧
    (c.feedModel (StaticMarkovWordSource.new ws)).chain.mcWordCollection
      = (MarkovChain.feedResolve
          (MarkovChain.feedRounds c.uiDepth c.feedStart ws)).mcWordCollection ∧
    (c.feedModel (StaticMarkovWordSource.new ws)).uiProcessedWordCount
      = (MarkovChain.feedResolve
          (MarkovChain.feedRounds c.uiDepth c.feedStart ws)).uiProcessedWordCount := by
  unfold MarkovChain.feedModel
  simp only [StaticMarkovWordSource.new, feedLoop_valid c.uiDepth ws hvalid]
  exact ⟨trivial, trivial, trivial, trivial⟩

theorem window_feedRounds (c : MarkovChain) (pre : List String) :
    (MarkovChain.feedRounds c.uiDepth c.feedStart pre).mwCurrentSequence.vsWords
      = lastWords c.uiDepth pre := by
  rcases window_foldl_feed c.uiDepth pre c.feedStart with h | h
  · exact h
  · subst h
    simp [lastWords, MarkovChain.feedRounds, MarkovChain.feedStart, MarkovWordSequence.new]

/-- The two halves of a round on a state whose window is `win` (non-empty) and whose
tree is `t`: the nodes of `win` are created and the word is added at its end. -/
theorem tree_round (d : Nat) (st : MarkovChain.FeedState) (w : String)
    (hw : st.mwCurrentSequence.vsWords ≠ []) :
    (MarkovChain.feedRecord d (MarkovChain.feedResolve st) w).mnTreeRoot
      = (MarkovNode.resolvePath st.mwCurrentSequence.vsWords st.mnTreeRoot).updateAt
          (fun n => n.addCandidate w) st.mwCurrentSequence.vsWords := by
  have hpos : st.mwCurrentSequence.getWordCount > 0 := List.length_pos.mpr hw
  simp only [MarkovChain.feedRecord, MarkovChain.feedResolve, if_pos hpos, resolveWords_fst,
    MarkovWordSequence.getWords, MarkovWordCollection.resolveWord]

theorem tree_feedResolve (st : MarkovChain.FeedState) :
    (MarkovChain.feedResolve st).mnTreeRoot
      = MarkovNode.resolvePath st.mwCurrentSequence.vsWords st.mnTreeRoot := by
  unfold MarkovChain.feedResolve
  split
  · simp only [resolveWords_fst, MarkovWordSequence.getWords]
  · rename_i h
    have : st.mwCurrentSequence.vsWords = [] := by
      simpa [MarkovWordSequence.getWordCount] using h
    rw [this]
    rfl

theorem lastWords_ne_nil (d : Nat) (hd : 1 ≤ d) (pre : List String) (h : pre ≠ []) :
    lastWords d pre ≠ [] := by
  obtain ⟨l, w, rfl⟩ : ∃ l w, pre = l ++ [w] :=
    ⟨pre.dropLast, pre.getLast h, (List.dropLast_append_getLast h).symm⟩
  exact lastWords_snoc_ne_nil d hd l w

/-- The candidate lists after the rounds that recorded `pre`: what the chain held
before, followed by the expected candidates of `pre`. -/
theorem candidatesAt_feedRounds (c : MarkovChain) (hd : 1 ≤ c.uiDepth) (pre : List String) :
    ∀ path : List String,
      MarkovNode.candidatesAt path (MarkovChain.feedRounds c.uiDepth c.feedStart pre).mnTreeRoot
        = MarkovNode.candidatesAt path c.mnTreeRoot
          ++ expectedCandidates c.uiDepth pre path := by
  induction pre using List.reverseRecOn with
  | nil => intro path; simp [MarkovChain.feedRounds, MarkovChain.feedStart, expectedCandidates_nil]
  | append_singleton pre w ih =>
    intro path
    rw [feedRounds_snoc, expectedCandidates_snoc]
    by_cases hpre : pre = []
    · subst hpre
      simp [MarkovChain.feedRounds, MarkovChain.feedStart, MarkovChain.feedResolve,
        MarkovChain.feedRecord, MarkovWordSequence.new, MarkovWordSequence.getWordCount,
        expectedCandidates_nil]
    · have hwin := window_feedRounds c pre
      have hne : (MarkovChain.feedRounds c.uiDepth c.feedStart pre).mwCurrentSequence.vsWords ≠ [] := by
        rw [hwin]; exact lastWords_ne_nil _ hd _ hpre
      rw [tree_round _ _ _ hne,
        candidatesAt_updateAt_addCandidate _ _ _ _ (nodeAt_resolvePath_self _ _),
        candidatesAt_resolvePath, ih, hwin, List.append_assoc]
      congr 2
      by_cases hp : path = lastWords c.uiDepth pre
      · rw [if_pos hp, if_pos ⟨hpre, hp.symm⟩]
      · rw [if_neg hp, if_neg (fun hh => hp hh.2.symm)]

theorem nodeAt_round_mono (d : Nat) (st : MarkovChain.FeedState) (w : String)
    (path : List String) (h : (st.mnTreeRoot.nodeAt path).isSome) :
    ((MarkovChain.feedRecord d (MarkovChain.feedResolve st) w).mnTreeRoot.nodeAt path).isSome := by
  have h1 : ((MarkovChain.feedResolve st).mnTreeRoot.nodeAt path).isSome := by
    rw [tree_feedResolve]
    exact nodeAt_resolvePath_mono _ _ _ h
  unfold MarkovChain.feedRecord
  split
  · simp only [nodeAt_updateAt_addCandidate]
    exact h1
  · exact h1

/-- After the rounds that recorded `pre`, every earlier window is a path of the tree. -/
theorem nodeAt_feedRounds (c : MarkovChain) (hd : 1 ≤ c.uiDepth) (pre : List String) :
    ∀ i, 1 ≤ i → i < pre.length →
      ((MarkovChain.feedRounds c.uiDepth c.feedStart pre).mnTreeRoot.nodeAt
        (windowAt c.uiDepth pre i)).isSome := by
  induction pre using List.reverseRecOn with
  | nil => intro i _ hi; simp at hi
  | append_singleton pre w ih =>
    intro i hi1 hi
    rw [List.length_append, List.length_singleton] at hi
    rw [feedRounds_snoc, windowAt_append _ _ _ _ (by omega)]
    by_cases hlt : i < pre.length
    · exact nodeAt_round_mono _ _ _ _ (ih i hi1 hlt)
    · have hieq : i = pre.length := by omega
      subst hieq
      have hpre : pre ≠ [] := by
        intro h; rw [h] at hi1; simp at hi1
      have hwin := window_feedRounds c pre
      have hne : (MarkovChain.feedRounds c.uiDepth c.feedStart pre).mwCurrentSequence.vsWords ≠ [] := by
        rw [hwin]; exact lastWords_ne_nil _ hd _ hpre
      rw [tree_round _ _ _ hne, nodeAt_updateAt_addCandidate, hwin, windowAt_length]
      exact nodeAt_resolvePath_self _ _

/-! ## C1 and C2 -/

/-- C1: for every order `d ≥ 1` and every list `w1..wn` of valid words (non-empty, at
most 1023 characters) fed through a static supply to a fresh chain, the window at every
position `i` in `1..n` is a path of children from the tree root, and when `i < n` the
candidate list of the node at its end contains `w(i+1)`. -/
theorem feed_windows_are_paths (d : Nat) (hd : 1 ≤ d) (seed : RandomSource) (ws : List String)
    (hvalid : ∀ w ∈ ws, ValidWord w) (i : Nat) (hi1 : 1 ≤ i) (hin : i ≤ ws.length) :
    (((MarkovChain.new d seed).feedModel
        (StaticMarkovWordSource.new ws)).chain.mnTreeRoot.nodeAt (windowAt d ws i)).isSome ∧
    ∀ w, ws[i]? = some w →
      w ∈ MarkovNode.candidatesAt (windowAt d ws i)
        ((MarkovChain.new d seed).feedModel (StaticMarkovWordSource.new ws)).chain.mnTreeRoot := by
  obtain ⟨-, htree, -, -⟩ := feedModel_valid (MarkovChain.new d seed) ws hvalid
  rw [htree, tree_feedResolve]
  constructor
  · by_cases hlt : i < ws.length
    · exact nodeAt_resolvePath_mono _ _ _ (nodeAt_feedRounds (MarkovChain.new d seed) hd ws i hi1 hlt)
    · have hieq : i = ws.length := by omega
      subst hieq
      rw [window_feedRounds, windowAt_length]
      exact nodeAt_resolvePath_self _ _
  · intro w hw
    rw [candidatesAt_resolvePath, candidatesAt_feedRounds (MarkovChain.new d seed) hd ws]
    apply List.mem_append_right
    unfold expectedCandidates
    rw [List.mem_filterMap]
    have hlt : i < ws.length := by
      by_contra hge
      rw [List.getElem?_eq_none (by omega)] at hw
      cases hw
    exact ⟨i, List.mem_range.mpr hlt, by rw [if_pos ⟨hi1, rfl⟩]; exact hw⟩

/-- C2: for every order `d ≥ 1` and every list `w1..wn` of valid words fed through a
static supply to a fresh chain, the candidate list found along any path is exactly the
list of the words `w(i+1)`, in increasing `i`, over the positions `1 ≤ i < n` whose
window is that path, duplicates kept and nothing added; so is the candidate list of
every node the path reaches. -/
theorem feed_candidates_exact (d : Nat) (hd : 1 ≤ d) (seed : RandomSource) (ws : List String)
    (hvalid : ∀ w ∈ ws, ValidWord w) (path : List String) :
    MarkovNode.candidatesAt path
        ((MarkovChain.new d seed).feedModel (StaticMarkovWordSource.new ws)).chain.mnTreeRoot
      = expectedCandidates d ws path ∧
    ∀ node, ((MarkovChain.new d seed).feedModel
        (StaticMarkovWordSource.new ws)).chain.mnTreeRoot.nodeAt path = some node →
      node.candidates = expectedCandidates d ws path := by
  have key : MarkovNode.candidatesAt path
      ((MarkovChain.new d seed).feedModel (StaticMarkovWordSource.new ws)).chain.mnTreeRoot
        = expectedCandidates d ws path := by
    obtain ⟨-, htree, -, -⟩ := feedModel_valid (MarkovChain.new d seed) ws hvalid
    rw [htree, tree_feedResolve, candidatesAt_resolvePath,
      candidatesAt_feedRounds (MarkovChain.new d seed) hd ws]
    show MarkovNode.candidatesAt path MarkovNode.new ++ _ = _
    rw [candidatesAt_new, List.nil_append]
    rfl
  refine ⟨key, fun node hnode => ?_⟩
  rw [← key]
  unfold MarkovNode.candidatesAt
  rw [hnode]

/-- Witness of C1: order 2 fed `[x, y, z]` gives root->x with candidate `y` and
root->x->y with candidate `z`. -/
theorem feed_windows_are_paths_witness :
    ((((MarkovChain.new 2 (fun _ => 0)).feedModel
        (StaticMarkovWordSource.new ["x", "y", "z"])).chain.mnTreeRoot.nodeAt ["x"]).isSome ∧
      "y" ∈ MarkovNode.candidatesAt ["x"]
        ((MarkovChain.new 2 (fun _ => 0)).feedModel
          (StaticMarkovWordSource.new ["x", "y", "z"])).chain.mnTreeRoot) ∧
    ((((MarkovChain.new 2 (fun _ => 0)).feedModel
        (StaticMarkovWordSource.new ["x", "y", "z"])).chain.mnTreeRoot.nodeAt ["x", "y"]).isSome ∧
      "z" ∈ MarkovNode.candidatesAt ["x", "y"]
        ((MarkovChain.new 2 (fun _ => 0)).feedModel
          (StaticMarkovWordSource.new ["x", "y", "z"])).chain.mnTreeRoot) :=
  ⟨⟨(feed_windows_are_paths 2 (by decide) (fun _ => 0) ["x", "y", "z"] (by decide) 1
        (by decide) (by decide)).1,
      (feed_windows_are_paths 2 (by decide) (fun _ => 0) ["x", "y", "z"] (by decide) 1
        (by decide) (by decide)).2 "y" rfl⟩,
    ⟨(feed_windows_are_paths 2 (by decide) (fun _ => 0) ["x", "y", "z"] (by decide) 2
        (by decide) (by decide)).1,
      (feed_windows_are_paths 2 (by decide) (fun _ => 0) ["x", "y", "z"] (by decide) 2
        (by decide) (by decide)).2 "z" rfl⟩⟩

/-- Witness of C2: order 1 fed `[a, b, a, b, a, c]` gives node `a` the candidate list
`[b, b, c]` and node `b` the candidate list `[a, a]`. -/
theorem feed_candidates_exact_witness :
    MarkovNode.candidatesAt ["a"]
        ((MarkovChain.new 1 (fun _ => 0)).feedModel
          (StaticMarkovWordSource.new ["a", "b", "a", "b", "a", "c"])).chain.mnTreeRoot
      = ["b", "b", "c"] ∧
    MarkovNode.candidatesAt ["b"]
        ((MarkovChain.new 1 (fun _ => 0)).feedModel
          (StaticMarkovWordSource.new ["a", "b", "a", "b", "a", "c"])).chain.mnTreeRoot
      = ["a", "a"] :=
  ⟨(feed_candidates_exact 1 (by decide) (fun _ => 0) ["a", "b", "a", "b", "a", "c"]
      (by decide) ["a"]).1.trans (by decide),
    (feed_candidates_exact 1 (by decide) (fun _ => 0) ["a", "b", "a", "b", "a", "c"]
      (by decide) ["b"]).1.trans (by decide)⟩

theorem mem_feedResolve (st : MarkovChain.FeedState) (x : String) :
    x ∈ (MarkovChain.feedResolve st).mcWordCollection.ssWords
      ↔ x ∈ st.mcWordCollection.ssWords ∨ x ∈ st.mwCurrentSequence.vsWords := by
  unfold MarkovChain.feedResolve
  split
  · exact mem_resolveWords _ _ x
  · rename_i h
    have : st.mwCurrentSequence.vsWords = [] := by
      simpa [MarkovWordSequence.getWordCount] using h
    simp [this]

theorem mem_feedRecord (d : Nat) (st : MarkovChain.FeedState) (w x : String) :
    (x ∈ (MarkovChain.feedRecord d st w).mcWordCollection.ssWords →
      x ∈ st.mcWordCollection.ssWords ∨ x = w) ∧
    (x ∈ st.mcWordCollection.ssWords →
      x ∈ (MarkovChain.feedRecord d st w).mcWordCollection.ssWords) := by
  unfold MarkovChain.feedRecord
  split
  · exact ⟨(mem_resolveWord _ _ x).mp, fun h => (mem_resolveWord _ _ x).mpr (Or.inl h)⟩
  · exact ⟨Or.inl, id⟩

/-- After the rounds that recorded `pre`, the collection holds only words it held before
or words of `pre`, and each of those is in the collection or still in the window. -/
theorem collection_feedRounds (c : MarkovChain) (hd : 1 ≤ c.uiDepth) (pre : List String) :
    (∀ x, x ∈ (MarkovChain.feedRounds c.uiDepth c.feedStart pre).mcWordCollection.ssWords →
      x ∈ c.mcWordCollection.ssWords ∨ x ∈ pre) ∧
    (∀ x, x ∈ c.mcWordCollection.ssWords ∨ x ∈ pre →
      x ∈ (MarkovChain.feedRounds c.uiDepth c.feedStart pre).mcWordCollection.ssWords ∨
      x ∈ (MarkovChain.feedRounds c.uiDepth c.feedStart pre).mwCurrentSequence.vsWords) := by
  induction pre using List.reverseRecOn with
  | nil =>
    refine ⟨fun x hx => Or.inl hx, fun x hx => ?_⟩
    rcases hx with h | h
    · exact Or.inl h
    · simp at h
  | append_singleton pre w ih =>
    obtain ⟨ih1, ih2⟩ := ih
    have hwin := window_feedRounds c pre
    rw [feedRounds_snoc]
    constructor
    · intro x hx
      rcases (mem_feedRecord _ _ w x).1 hx with h | h
      · rcases (mem_feedResolve _ x).mp h with h1 | h1
        · rcases ih1 x h1 with h2 | h2
          · exact Or.inl h2
          · exact Or.inr (List.mem_append_left _ h2)
        · rw [hwin] at h1
          exact Or.inr (List.mem_append_left _ (mem_of_mem_lastWords h1))
      · exact Or.inr (by rw [h]; simp)
    · intro x hx
      have hold : x ∈ c.mcWordCollection.ssWords ∨ x ∈ pre →
          x ∈ (MarkovChain.feedRecord c.uiDepth (MarkovChain.feedResolve
            (MarkovChain.feedRounds c.uiDepth c.feedStart pre)) w).mcWordCollection.ssWords :=
        fun h => (mem_feedRecord _ _ w x).2 ((mem_feedResolve _ x).mpr (ih2 x h))
      rcases hx with h | h
      · exact Or.inl (hold (Or.inl h))
      · rcases List.mem_append.mp h with h1 | h1
        · exact Or.inl (hold (Or.inr h1))
        · right
          rw [window_feedRecord, addOrShiftWord_eq, window_feedResolve,
            List.mem_singleton.mp h1]
          exact mem_lastWords_snoc _ hd _ _

/-- A feed of valid words into a chain of order at least one interns exactly the words
fed, next to those the collection held. -/
theorem mem_collection_feedModel (c : MarkovChain) (hd : 1 ≤ c.uiDepth) (ws : List String)
    (hvalid : ∀ w ∈ ws, ValidWord w) (x : String) :
    x ∈ (c.feedModel (StaticMarkovWordSource.new ws)).chain.mcWordCollection.ssWords
      ↔ x ∈ c.mcWordCollection.ssWords ∨ x ∈ ws := by
  obtain ⟨-, -, hwc, -⟩ := feedModel_valid c ws hvalid
  obtain ⟨h1, h2⟩ := collection_feedRounds c hd ws
  rw [hwc, mem_feedResolve]
  constructor
  · rintro (h | h)
    · exact h1 x h
    · rw [window_feedRounds] at h
      exact Or.inr (mem_of_mem_lastWords h)
  · exact h2 x

theorem mem_collection_feeds (feeds : List (List String))
    (hvalid : ∀ ws ∈ feeds, ∀ w ∈ ws, ValidWord w) :
    ∀ (c : MarkovChain), 1 ≤ c.uiDepth → ∀ x,
      x ∈ (runCalls (feeds.map ChainCall.feedModel) c).mcWordCollection.ssWords
        ↔ x ∈ c.mcWordCollection.ssWords ∨ x ∈ feeds.flatten := by
  induction feeds with
  | nil => intro c _ x; simp [runCalls]
  | cons ws feeds ih =>
    intro c hd x
    have hstep := ih (fun l hl => hvalid l (List.mem_cons_of_mem _ hl))
      ((ChainCall.feedModel ws).run c) hd x
    have hfeed := mem_collection_feedModel c hd ws (hvalid ws (List.mem_cons_self _ _)) x
    simp only [List.map_cons, runCalls, List.foldl_cons, List.flatten_cons,
      List.mem_append] at hstep ⊢
    rw [hstep]
    simp only [ChainCall.run]
    rw [hfeed]
    tauto

/-! ## C10 -/

/-- The count after feeds of valid words: the number of distinct strings fed, as a
32-bit value. -/
theorem uniqueWordCount_mod (d : Nat) (hd : 1 ≤ d) (seed : RandomSource)
    (fs : List (List String)) (hfs : ∀ ws ∈ fs, ∀ w ∈ ws, ValidWord w) :
    (runCalls (fs.map ChainCall.feedModel) (MarkovChain.new d seed)).getUniqueWordCount
      = fs.flatten.dedup.length % 2 ^ 32 := by
  have hmem := mem_collection_feeds fs hfs (MarkovChain.new d seed) hd
  have hnodup := (ChainInv_runCalls (fs.map ChainCall.feedModel) _ (ChainInv_new d seed)).2.2.2
  unfold MarkovChain.getUniqueWordCount MarkovWordCollection.getWordCount
  have hset : (runCalls (fs.map ChainCall.feedModel)
      (MarkovChain.new d seed)).mcWordCollection.ssWords.toFinset = fs.flatten.toFinset := by
    apply List.toFinset.ext
    intro x
    rw [hmem x]
    simp [MarkovChain.new]
  have hperm := List.toFinset_eq_iff_perm_dedup.mp hset
  rw [hnodup.dedup] at hperm
  rw [hperm.length_eq]

theorem distinctWord_length (i : Nat) : (distinctWord i).length = 32 := by
  show (List.map _ (List.range 32)).length = 32
  rw [List.length_map, List.length_range]

theorem distinctWord_valid (i : Nat) : ValidWord (distinctWord i) := by
  constructor
  · intro h
    have hl := distinctWord_length i
    rw [h] at hl
    exact absurd hl (by decide)
  · rw [distinctWord_length]
    decide

theorem distinctWord_inj (i j : Nat) (hi : i < 2 ^ 32) (hj : j < 2 ^ 32)
    (h : distinctWord i = distinctWord j) : i = j := by
  have hdata : (List.range 32).map (fun k => if i.testBit k then 'b' else 'a')
      = (List.range 32).map (fun k => if j.testBit k then 'b' else 'a') :=
    congrArg String.data h
  have hbits := List.map_inj_left.mp hdata
  apply Nat.eq_of_testBit_eq
  intro k
  by_cases hk : k < 32
  · have hb := hbits k (List.mem_range.mpr hk)
    cases h1 : i.testBit k <;> cases h2 : j.testBit k
    · rfl
    · rw [h1, h2] at hb
      exact absurd hb (by decide)
    · rw [h1, h2] at hb
      exact absurd hb (by decide)
    · rfl
  · have hle : 2 ^ 32 ≤ 2 ^ k := Nat.pow_le_pow_right (by decide) (by omega)
    rw [Nat.testBit_lt_two_pow (Nat.lt_of_lt_of_le hi hle),
      Nat.testBit_lt_two_pow (Nat.lt_of_lt_of_le hj hle)]

theorem distinctWords_nodup (n : Nat) (hn : n ≤ 2 ^ 32) : (distinctWords n).Nodup := by
  unfold distinctWords
  refine List.Nodup.map_on ?_ (List.nodup_range n)
  intro x hx y hy hxy
  exact distinctWord_inj x y (Nat.lt_of_lt_of_le (List.mem_range.mp hx) hn)
    (Nat.lt_of_lt_of_le (List.mem_range.mp hy) hn) hxy

theorem distinctWords_length (n : Nat) : (distinctWords n).length = n := by
  unfold distinctWords
  rw [List.length_map, List.length_range]

theorem distinctWords_valid (n : Nat) : ∀ w ∈ distinctWords n, ValidWord w := by
  intro w hw
  unfold distinctWords at hw
  obtain ⟨i, -, rfl⟩ := List.mem_map.mp hw
  exact distinctWord_valid i

/-- Counterexample to C10 as stated: the `2^32` words `distinctWords (2^32)` are valid
and pairwise distinct, and after one feed of them into a fresh chain of order 1
`getUniqueWordCount` is 0, not `2^32`: the count is returned as a `uint32_t`. -/
theorem uniqueWordCount_wraps :
    (∀ ws ∈ [distinctWords (2 ^ 32)], ∀ w ∈ ws, ValidWord w) ∧
    [distinctWords (2 ^ 32)].flatten.dedup.length = 2 ^ 32 ∧
    (runCalls ([distinctWords (2 ^ 32)].map ChainCall.feedModel)
      (MarkovChain.new 1 (fun _ => 0))).getUniqueWordCount = 0 := by
  have hvalid : ∀ ws ∈ [distinctWords (2 ^ 32)], ∀ w ∈ ws, ValidWord w := by
    intro ws hws
    rw [List.mem_singleton.mp hws]
    exact distinctWords_valid _
  have hlen : [distinctWords (2 ^ 32)].flatten.dedup.length = 2 ^ 32 := by
    rw [List.flatten_cons, List.flatten_nil, List.append_nil,
      (distinctWords_nodup _ (Nat.le_refl _)).dedup, distinctWords_length]
  refine ⟨hvalid, hlen, ?_⟩
  rw [uniqueWordCount_mod 1 (Nat.le_refl 1) _ _ hvalid, hlen]
  exact Nat.mod_self _

/-- C10, amended: for every order `d ≥ 1` and every sequence of feeds of valid words
into a fresh chain that holds fewer than `2^32` distinct strings, `getUniqueWordCount`
is the number of distinct strings among all the words fed; two sequences of feeds that
hold the same words, however often repeated, give the same count; and for any number of
distinct strings the count is that number modulo `2^32`. -/
theorem uniqueWordCount_eq_distinct (d : Nat) (hd : 1 ≤ d) (seed : RandomSource)
    (feeds : List (List String)) (hvalid : ∀ ws ∈ feeds, ∀ w ∈ ws, ValidWord w)
    (hbound : feeds.flatten.dedup.length < 2 ^ 32) :
    (runCalls (feeds.map ChainCall.feedModel) (MarkovChain.new d seed)).getUniqueWordCount
      = feeds.flatten.dedup.length ∧
    (∀ (feeds2 : List (List String)), (∀ ws ∈ feeds2, ∀ w ∈ ws, ValidWord w) →
      (∀ x, x ∈ feeds.flatten ↔ x ∈ feeds2.flatten) →
      (runCalls (feeds2.map ChainCall.feedModel) (MarkovChain.new d seed)).getUniqueWordCount
        = (runCalls (feeds.map ChainCall.feedModel)
            (MarkovChain.new d seed)).getUniqueWordCount) ∧
    ∀ (fs : List (List String)), (∀ ws ∈ fs, ∀ w ∈ ws, ValidWord w) →
      (runCalls (fs.map ChainCall.feedModel) (MarkovChain.new d seed)).getUniqueWordCount
        = fs.flatten.dedup.length % 2 ^ 32 := by
  refine ⟨?_, fun feeds2 hvalid2 hsame => ?_, uniqueWordCount_mod d hd seed⟩
  · rw [uniqueWordCount_mod d hd seed feeds hvalid, Nat.mod_eq_of_lt hbound]
  · rw [uniqueWordCount_mod d hd seed feeds hvalid, uniqueWordCount_mod d hd seed feeds2 hvalid2,
      (List.toFinset_eq_iff_perm_dedup.mp
        (List.toFinset.ext (fun x => (hsame x).symm))).length_eq]

/-- Witness of C10, amended: feeding `[a, b, a]` and then `[b, c]` to a chain of order 2
gives a count of three. -/
theorem uniqueWordCount_eq_distinct_witness :
    (runCalls ([["a", "b", "a"], ["b", "c"]].map ChainCall.feedModel)
      (MarkovChain.new 2 (fun _ => 0))).getUniqueWordCount = 3 :=
  (uniqueWordCount_eq_distinct 2 (by decide) (fun _ => 0) [["a", "b", "a"], ["b", "c"]]
    (by decide) (by decide)).1.trans (by decide)

/-! ## C5: a feed that meets an over-long word -/

/-- The loop of `feedModel` on valid words followed by an over-long one: it ends with
ConstraintViolation in the state the valid words alone lead to. -/
theorem feedLoop_overlong (d : Nat) (pre : List String) (hvalid : ∀ w ∈ pre, ValidWord w)
    (w : String) (hw : w.length > szMarkovMaxWordLength) (post : List String) :
    ∀ st : MarkovChain.FeedState, MarkovChain.feedLoop d (pre ++ w :: post) st
      = (.error .MarkovConstraintException,
          MarkovChain.feedResolve (MarkovChain.feedRounds d st pre)) := by
  induction pre with
  | nil =>
    intro st
    simp only [List.nil_append, MarkovChain.feedLoop, StaticMarkovWordSource.getNextWord,
      if_pos hw, MarkovChain.feedRounds, List.foldl_nil]
  | cons x pre ih =>
    intro st
    obtain ⟨hne, hlen⟩ := hvalid x (List.mem_cons_self _ _)
    simp only [List.cons_append, MarkovChain.feedLoop, StaticMarkovWordSource.getNextWord,
      if_neg (Nat.not_lt.mpr hlen), if_neg hne, MarkovChain.feedRounds, List.foldl_cons]
    exact ih (fun y hy => hvalid y (List.mem_cons_of_mem _ hy)) _

/-- An empty word ends the loop of `feedModel` as the end of the supply does. -/
theorem feedLoop_empty_word (d : Nat) (rest : List String) (st : MarkovChain.FeedState) :
    MarkovChain.feedLoop d ("" :: rest) st = (.ok (), MarkovChain.feedResolve st) := by
  simp only [MarkovChain.feedLoop, StaticMarkovWordSource.getNextWord,
    if_neg (by decide : ¬ "".length > szMarkovMaxWordLength), if_true]

theorem overlongWord_length : overlongWord.length > szMarkovMaxWordLength := by
  show (List.replicate 1024 'a').length > 1023
  rw [List.length_replicate]
  decide

theorem overlongWord_mem : ∃ w ∈ ["a", overlongWord], w.length > 1023 :=
  ⟨overlongWord, List.mem_cons_of_mem _ (List.mem_cons_self _ _), overlongWord_length⟩

/-- Counterexample to C5 as stated: a fresh chain of order 1 fed `[a, w]` with `w` of
1024 characters raises ConstraintViolation, and the tree is no longer what it was: the
root, childless before the call, has the child `a` after it.  Fed `["", w]`, the same
chain stops at the empty word and raises nothing. -/
theorem feed_overlong_changes_tree :
    (∃ w ∈ ["a", overlongWord], w.length > 1023) ∧
    ((MarkovChain.new 1 (fun _ => 0)).feedModel
      (StaticMarkovWordSource.new ["a", overlongWord])).result
        = .error .MarkovConstraintException ∧
    (MarkovChain.new 1 (fun _ => 0)).mnTreeRoot.entries.map Prod.fst = [] ∧
    ((MarkovChain.new 1 (fun _ => 0)).feedModel
      (StaticMarkovWordSource.new ["a", overlongWord])).chain.mnTreeRoot.entries.map Prod.fst
        = ["a"] ∧
    ((MarkovChain.new 1 (fun _ => 0)).feedModel
      (StaticMarkovWordSource.new ["a", overlongWord])).chain.mnTreeRoot
        ≠ (MarkovChain.new 1 (fun _ => 0)).mnTreeRoot ∧
    ((MarkovChain.new 1 (fun _ => 0)).feedModel
      (StaticMarkovWordSource.new ["", overlongWord])).result = .ok () := by
  have hfeed : MarkovChain.feedLoop (MarkovChain.new 1 (fun _ => 0)).uiDepth
      (["a"] ++ overlongWord :: []) (MarkovChain.new 1 (fun _ => 0)).feedStart = _ :=
    feedLoop_overlong _ ["a"] (by decide) overlongWord overlongWord_length []
      (MarkovChain.new 1 (fun _ => 0)).feedStart
  simp only [List.singleton_append] at hfeed
  have hentries : ((MarkovChain.new 1 (fun _ => 0)).feedModel
      (StaticMarkovWordSource.new ["a", overlongWord])).chain.mnTreeRoot.entries.map Prod.fst
        = ["a"] := by
    unfold MarkovChain.feedModel
    simp only [StaticMarkovWordSource.new, hfeed]
    decide
  refine ⟨overlongWord_mem, ?_, rfl, hentries, ?_, ?_⟩
  · unfold MarkovChain.feedModel
    simp only [StaticMarkovWordSource.new, hfeed]
  · intro h
    rw [h] at hentries
    exact absurd hentries (by decide)
  · unfold MarkovChain.feedModel
    simp only [StaticMarkovWordSource.new, feedLoop_empty_word]

/-- C5, amended: when the words before the first over-long word are all valid, the feed
raises ConstraintViolation and leaves the generation window as it was; the rest of the
chain, tree included, is left as a feed of the words before the over-long word alone
leaves it, and so unchanged when the over-long word comes first. -/
theorem feed_overlong_keeps_earlier_words (c : MarkovChain) (pre : List String)
    (hvalid : ∀ w ∈ pre, ValidWord w) (w : String) (hw : w.length > szMarkovMaxWordLength)
    (post : List String) :
    (c.feedModel (StaticMarkovWordSource.new (pre ++ w :: post))).result
      = .error .MarkovConstraintException ∧
    (c.feedModel (StaticMarkovWordSource.new (pre ++ w :: post))).chain.msCurrentState
      = c.msCurrentState ∧
    (c.feedModel (StaticMarkovWordSource.new (pre ++ w :: post))).chain
      = (c.feedModel (StaticMarkovWordSource.new pre)).chain ∧
    (c.feedModel (StaticMarkovWordSource.new pre)).result = .ok () ∧
    (pre = [] → (c.feedModel (StaticMarkovWordSource.new (pre ++ w :: post))).chain = c) := by
  have h1 := feedLoop_overlong c.uiDepth pre hvalid w hw post c.feedStart
  have h2 := feedLoop_valid c.uiDepth pre hvalid c.feedStart
  unfold MarkovChain.feedModel
  simp only [StaticMarkovWordSource.new, h1, h2, true_and]
  intro hpre
  subst hpre
  rfl
/-- Witness of C5, amended: the feed of `[a, b, w, c]` with `w` over-long into the chain
that holds `[a]` leaves it as the feed of `[a, b]` does. -/
theorem feed_overlong_keeps_earlier_words_witness :
    (((MarkovChain.new 2 (fun _ => 0)).feedModel (StaticMarkovWordSource.new ["a"])).chain.feedModel
      (StaticMarkovWordSource.new (["a", "b"] ++ overlongWord :: ["c"]))).result
        = .error .MarkovConstraintException ∧
    (((MarkovChain.new 2 (fun _ => 0)).feedModel (StaticMarkovWordSource.new ["a"])).chain.feedModel
      (StaticMarkovWordSource.new (["a", "b"] ++ overlongWord :: ["c"]))).chain
        = (((MarkovChain.new 2 (fun _ => 0)).feedModel
            (StaticMarkovWordSource.new ["a"])).chain.feedModel
              (StaticMarkovWordSource.new ["a", "b"])).chain :=
  ⟨(feed_overlong_keeps_earlier_words
      ((MarkovChain.new 2 (fun _ => 0)).feedModel (StaticMarkovWordSource.new ["a"])).chain
      ["a", "b"] (by decide) overlongWord overlongWord_length ["c"]).1,
    (feed_overlong_keeps_earlier_words
      ((MarkovChain.new 2 (fun _ => 0)).feedModel (StaticMarkovWordSource.new ["a"])).chain
      ["a", "b"] (by decide) overlongWord overlongWord_length ["c"]).2.2.1⟩

/-! ## How often an index is selected -/

/-- The index in exact arithmetic, for a container of `m + 1 ≥ 2` elements. -/
theorem selectIndex_eq (m r : Nat) (hm : 1 ≤ m) (hm2 : m < 2 ^ 32) (hr : r < 2 ^ 32) :
    selectIndex (m + 1) r = (2 * (r * m) + 4294967295) / 8589934590 := by
  have hr2 : r ≤ 4294967295 := by omega
  have hp : r * m ≤ 4294967295 * m := Nat.mul_le_mul_right m hr2
  have hspan : ((m + 1 - 1) % 4294967296 + 4294967296 - 0) % 4294967296 = m := by omega
  have hmax : (m + 1 - 1) % 4294967296 = m := by omega
  unfold selectIndex fitValueWithinRange roundDiv UINT32_MAX
  simp only [Nat.reducePow, Nat.reduceSub, Nat.reduceMul]
  rw [hspan, hmax, if_neg (by omega)]
  generalize r * m = p at hp ⊢
  split_ifs <;> omega

theorem selectIndex_ge_iff (m r k : Nat) (hm : 1 ≤ m) (hm2 : m < 2 ^ 32) (hr : r < 2 ^ 32) :
    k ≤ selectIndex (m + 1) r ↔ (2 * k - 1) * 4294967295 ≤ 2 * (r * m) := by
  rw [selectIndex_eq m r hm hm2 hr]
  generalize r * m = p
  omega

theorem selectIndex_le (m r : Nat) (hm : 1 ≤ m) (hm2 : m < 2 ^ 32) (hr : r < 2 ^ 32) :
    selectIndex (m + 1) r ≤ m := by
  have hp : r * m ≤ 4294967295 * m := Nat.mul_le_mul_right m (by omega)
  rw [selectIndex_eq m r hm hm2 hr]
  generalize r * m = p at hp
  omega

theorem selectIndex_eq_zero_iff (m r : Nat) (hm : 1 ≤ m) (hm2 : m < 2 ^ 32) (hr : r < 2 ^ 32) :
    selectIndex (m + 1) r = 0 ↔ r ≤ 2147483647 / m := by
  rw [Nat.le_div_iff_mul_le (by omega), selectIndex_eq m r hm hm2 hr]
  generalize r * m = p
  omega

theorem selectIndex_eq_last_iff (m r : Nat) (hm : 1 ≤ m) (hm2 : m < 2 ^ 32) (hr : r < 2 ^ 32) :
    selectIndex (m + 1) r = m ↔ 4294967295 - 2147483647 / m ≤ r := by
  have hle := selectIndex_le m r hm hm2 hr
  have hge := selectIndex_ge_iff m r m hm hm2 hr
  have hr2 : r ≤ 4294967295 := by omega
  have hdiv : 4294967295 - r ≤ 2147483647 / m ↔ (4294967295 - r) * m ≤ 2147483647 :=
    Nat.le_div_iff_mul_le (by omega)
  have hmul : (4294967295 - r) * m = 4294967295 * m - r * m := Nat.sub_mul _ _ _
  have hp : r * m ≤ 4294967295 * m := Nat.mul_le_mul_right m hr2
  have hh : 2147483647 / m ≤ 2147483647 := Nat.div_le_self _ _
  rw [hmul] at hdiv
  generalize r * m = p at hge hdiv hp
  generalize 2147483647 / m = h at hdiv hh ⊢
  constructor
  · intro heq
    have h1 := hge.mp (by omega)
    have h2 := hdiv.mpr (by omega)
    omega
  · intro hr3
    have h1 := hdiv.mp (by omega)
    have h2 := hge.mpr (by omega)
    omega

/-- The least raw value that is mapped to index `k` or beyond, for a container of
`m + 1` elements. -/
theorem selectIndex_ge_iff_bound (m r k : Nat) (hm : 1 ≤ m) (hm2 : m < 2 ^ 32)
    (hr : r < 2 ^ 32) :
    k ≤ selectIndex (m + 1) r ↔ ((2 * k - 1) * 4294967295 + (2 * m - 1)) / (2 * m) ≤ r := by
  rw [selectIndex_ge_iff m r k hm hm2 hr, Nat.div_le_iff_le_mul_add_pred (by omega)]
  have : 2 * m * r = 2 * (r * m) := by ring
  rw [this]
  generalize r * m = p
  omega

theorem selectionCount_zero (m : Nat) (hm : 1 ≤ m) (hm2 : m < 2 ^ 32) :
    selectionCount (m + 1) 0 = 2147483647 / m + 1 := by
  unfold selectionCount
  have hh : 2147483647 / m ≤ 2147483647 := Nat.div_le_self _ _
  have : (Finset.range (2 ^ 32)).filter (fun r => selectIndex (m + 1) r = 0)
      = Finset.range (2147483647 / m + 1) := by
    ext r
    simp only [Finset.mem_filter, Finset.mem_range]
    constructor
    · rintro ⟨hr, h0⟩
      have := (selectIndex_eq_zero_iff m r hm hm2 hr).mp h0
      omega
    · intro hr
      have hr2 : r < 2 ^ 32 := by omega
      exact ⟨hr2, (selectIndex_eq_zero_iff m r hm hm2 hr2).mpr (by omega)⟩
  rw [this, Finset.card_range]

theorem selectionCount_last (m : Nat) (hm : 1 ≤ m) (hm2 : m < 2 ^ 32) :
    selectionCount (m + 1) m = 2147483647 / m + 1 := by
  unfold selectionCount
  have hh : 2147483647 / m ≤ 2147483647 := Nat.div_le_self _ _
  have : (Finset.range (2 ^ 32)).filter (fun r => selectIndex (m + 1) r = m)
      = Finset.Icc (4294967295 - 2147483647 / m) 4294967295 := by
    ext r
    simp only [Finset.mem_filter, Finset.mem_range, Finset.mem_Icc]
    constructor
    · rintro ⟨hr, h0⟩
      have := (selectIndex_eq_last_iff m r hm hm2 hr).mp h0
      omega
    · rintro ⟨h1, h2⟩
      have hr2 : r < 2 ^ 32 := by omega
      exact ⟨hr2, (selectIndex_eq_last_iff m r hm hm2 hr2).mpr h1⟩
  rw [this, Nat.card_Icc]
  generalize 2147483647 / m = h at hh
  omega

theorem selectionCount_interior (m k : Nat) (hm2 : m < 2 ^ 32) (hk1 : 1 ≤ k) (hk2 : k + 1 ≤ m) :
    selectionCount (m + 1) k = 4294967295 / m ∨ selectionCount (m + 1) k = 4294967295 / m + 1 := by
  have hm : 1 ≤ m := by omega
  unfold selectionCount
  have hupper : ((2 * (k + 1) - 1) * 4294967295 + (2 * m - 1)) / (2 * m) ≤ 4294967295 := by
    rw [Nat.div_le_iff_le_mul_add_pred (by omega)]
    have : 2 * m * 4294967295 = 8589934590 * m := by ring
    rw [this]
    omega
  have hset : (Finset.range (2 ^ 32)).filter (fun r => selectIndex (m + 1) r = k)
      = Finset.Ico (((2 * k - 1) * 4294967295 + (2 * m - 1)) / (2 * m))
          (((2 * (k + 1) - 1) * 4294967295 + (2 * m - 1)) / (2 * m)) := by
    ext r
    simp only [Finset.mem_filter, Finset.mem_range, Finset.mem_Ico]
    constructor
    · rintro ⟨hr, h0⟩
      have h1 := (selectIndex_ge_iff_bound m r k hm hm2 hr).mp (by omega)
      have h2 := selectIndex_ge_iff_bound m r (k + 1) hm hm2 hr
      refine ⟨h1, ?_⟩
      by_contra hcon
      have := h2.mpr (by omega)
      omega
    · rintro ⟨h1, h2⟩
      have hr : r < 2 ^ 32 := by omega
      have h3 := (selectIndex_ge_iff_bound m r k hm hm2 hr).mpr h1
      have h4 := selectIndex_ge_iff_bound m r (k + 1) hm hm2 hr
      refine ⟨hr, ?_⟩
      by_contra hcon
      have := h4.mp (by omega)
      omega
  rw [hset, Nat.card_Ico]
  have hsplit : (2 * (k + 1) - 1) * 4294967295 + (2 * m - 1)
      = ((2 * k - 1) * 4294967295 + (2 * m - 1)) + 2 * 4294967295 := by omega
  rw [hsplit, Nat.add_div (by omega : 0 < 2 * m), Nat.mul_div_mul_left _ _ (by omega : 0 < 2)]
  generalize ((2 * k - 1) * 4294967295 + (2 * m - 1)) / (2 * m) = lo
  generalize 4294967295 / m = q
  split_ifs <;> omega

theorem selectRandomElement_const (vs : List String) (r : Nat) (hr : r < 2 ^ 32)
    (hvs : vs ≠ []) :
    (selectRandomElement vs (fun _ => r)).1 = vs.get? (selectIndex vs.length r) := by
  have hlen := List.length_pos.mpr hvs
  unfold selectRandomElement RandomSource.draw
  rw [if_neg (by omega)]
  simp only [Nat.mod_eq_of_lt hr]

theorem selectIndex_three (r : Nat) (hr : r < 2 ^ 32) :
    (selectIndex 3 r = 0 ↔ r < 1073741824) ∧
    (selectIndex 3 r = 1 ↔ 1073741824 ≤ r ∧ r < 3221225472) ∧
    (selectIndex 3 r = 2 ↔ 3221225472 ≤ r) := by
  have h := selectIndex_eq 2 r (by omega) (by omega) hr
  have hl := selectIndex_le 2 r (by omega) (by omega) hr
  simp only [show 2 + 1 = 3 from rfl] at h hl
  rw [h] at hl ⊢
  omega

theorem selectionCount_three_middle : selectionCount 3 1 = 2147483648 := by
  unfold selectionCount
  have : (Finset.range (2 ^ 32)).filter (fun r => selectIndex 3 r = 1)
      = Finset.Ico 1073741824 3221225472 := by
    ext r
    simp only [Finset.mem_filter, Finset.mem_range, Finset.mem_Ico]
    constructor
    · rintro ⟨hr, h1⟩
      exact (selectIndex_three r hr).2.1.mp h1
    · rintro ⟨h1, h2⟩
      have hr : r < 2 ^ 32 := by omega
      exact ⟨hr, (selectIndex_three r hr).2.1.mpr ⟨h1, h2⟩⟩
  rw [this, Nat.card_Ico]

theorem wordSelectionCount_bbc :
    wordSelectionCount ["b", "b", "c"] "b" = 3221225472 ∧
    wordSelectionCount ["b", "b", "c"] "c" = 1073741824 := by
  have hget : ∀ r, r < 2 ^ 32 →
      (selectRandomElement ["b", "b", "c"] (fun _ => r)).1
        = ["b", "b", "c"].get? (selectIndex 3 r) :=
    fun r hr => selectRandomElement_const _ r hr (by simp)
  have hidx : ∀ r, r < 2 ^ 32 → selectIndex 3 r = 0 ∨ selectIndex 3 r = 1 ∨ selectIndex 3 r = 2 := by
    intro r hr
    have := selectIndex_le 2 r (by omega) (by omega) hr
    simp only [show 2 + 1 = 3 from rfl] at this
    omega
  constructor
  · unfold wordSelectionCount
    have : (Finset.range (2 ^ 32)).filter
        (fun r => (selectRandomElement ["b", "b", "c"] (fun _ => r)).1 = some "b")
          = Finset.range 3221225472 := by
      ext r
      simp only [Finset.mem_filter, Finset.mem_range]
      constructor
      · rintro ⟨hr, h1⟩
        rw [hget r hr] at h1
        obtain ⟨h0, h1', h2⟩ := selectIndex_three r hr
        rcases hidx r hr with h | h | h
        · have := h0.mp h; omega
        · have := h1'.mp h; omega
        · rw [h] at h1; simp at h1
      · intro h
        have hr : r < 2 ^ 32 := by omega
        refine ⟨hr, ?_⟩
        rw [hget r hr]
        obtain ⟨h0, h1', h2⟩ := selectIndex_three r hr
        rcases hidx r hr with h3 | h3 | h3
        · rw [h3]; rfl
        · rw [h3]; rfl
        · have := h2.mp h3; omega
    rw [this, Finset.card_range]
  · unfold wordSelectionCount
    have : (Finset.range (2 ^ 32)).filter
        (fun r => (selectRandomElement ["b", "b", "c"] (fun _ => r)).1 = some "c")
          = Finset.Ico 3221225472 4294967296 := by
      ext r
      simp only [Finset.mem_filter, Finset.mem_range, Finset.mem_Ico]
      constructor
      · rintro ⟨hr, h1⟩
        rw [hget r hr] at h1
        obtain ⟨h0, h1', h2⟩ := selectIndex_three r hr
        rcases hidx r hr with h | h | h
        · rw [h] at h1; simp at h1
        · rw [h] at h1; simp at h1
        · have := h2.mp h
          omega
      · rintro ⟨h1, h2⟩
        have hr : r < 2 ^ 32 := by omega
        refine ⟨hr, ?_⟩
        rw [hget r hr, (selectIndex_three r hr).2.2.mpr h1]
        rfl
    rw [this, Nat.card_Ico]

/-! ## C9 -/

/-- Counterexample to C9 as stated: for a sequence of three entries the middle index is
selected by `2^31` raw values and the first by `2^30`, far more than one apart; and from
`[b, b, c]` the word `b` is selected three times as often as `c`, not twice. -/
theorem selection_not_uniform :
    selectionCount 3 1 = 2147483648 ∧ selectionCount 3 0 = 1073741824 ∧
    ¬ (selectionCount 3 1 ≤ selectionCount 3 0 + 1) ∧
    wordSelectionCount ["b", "b", "c"] "b" = 3 * wordSelectionCount ["b", "b", "c"] "c" ∧
    wordSelectionCount ["b", "b", "c"] "b" ≠ 2 * wordSelectionCount ["b", "b", "c"] "c" := by
  have h0 : selectionCount 3 0 = 1073741824 := selectionCount_zero 2 (by omega) (by omega)
  have h1 := selectionCount_three_middle
  obtain ⟨hb, hc⟩ := wordSelectionCount_bbc
  refine ⟨h1, h0, ?_, ?_, ?_⟩
  · rw [h0, h1]; decide
  · rw [hb, hc]
  · rw [hb, hc]; decide

/-- C9, amended: for a sequence of `n` entries, `2 ≤ n ≤ 2^32`, with the index
`round(r / (2^32 - 1) * (n - 1))` taken in exact arithmetic and clamped, as `r` ranges
over all `2^32` values every interior index `1..n-2` is selected by `(2^32 - 1) / (n - 1)`
values (rounded down) or one more, so any two of them differ by at most one, while each
of the end indices `0` and `n - 1` is selected by `(2^31 - 1) / (n - 1)` values (rounded
down) plus one, about half as many; hence from `[b, b, c]` the word `b` is selected
three times as often as `c`. -/
theorem selection_counts (n : Nat) (hn : 2 ≤ n) (hn2 : n ≤ 2 ^ 32) :
    selectionCount n 0 = (2 ^ 31 - 1) / (n - 1) + 1 ∧
    selectionCount n (n - 1) = (2 ^ 31 - 1) / (n - 1) + 1 ∧
    (∀ k, 1 ≤ k → k + 2 ≤ n →
      selectionCount n k = (2 ^ 32 - 1) / (n - 1) ∨
      selectionCount n k = (2 ^ 32 - 1) / (n - 1) + 1) ∧
    (∀ j k, 1 ≤ j → j + 2 ≤ n → 1 ≤ k → k + 2 ≤ n →
      selectionCount n j ≤ selectionCount n k + 1) ∧
    wordSelectionCount ["b", "b", "c"] "b" = 3 * wordSelectionCount ["b", "b", "c"] "c" := by
  obtain ⟨m, rfl⟩ : ∃ m, n = m + 1 := ⟨n - 1, by omega⟩
  have hm : 1 ≤ m := by omega
  have hm2 : m < 2 ^ 32 := by omega
  simp only [Nat.add_sub_cancel]
  have hint : ∀ k, 1 ≤ k → k + 2 ≤ m + 1 →
      selectionCount (m + 1) k = (2 ^ 32 - 1) / m ∨
      selectionCount (m + 1) k = (2 ^ 32 - 1) / m + 1 :=
    fun k hk1 hk2 => selectionCount_interior m k hm2 hk1 (by omega)
  obtain ⟨hb, hc⟩ := wordSelectionCount_bbc
  refine ⟨selectionCount_zero m hm hm2, selectionCount_last m hm hm2, hint, ?_, ?_⟩
  · intro j k hj1 hj2 hk1 hk2
    rcases hint j hj1 hj2 with h1 | h1 <;> rcases hint k hk1 hk2 with h2 | h2 <;> omega
  · rw [hb, hc]

/-- Witness of C9, amended: for three entries the end indices are selected by `2^30`
values each and the middle one by `2^31 - 1` or `2^31`. -/
theorem selection_counts_witness :
    selectionCount 3 0 = 1073741824 ∧ selectionCount 3 2 = 1073741824 ∧
    (selectionCount 3 1 = 2147483647 ∨ selectionCount 3 1 = 2147483648) :=
  ⟨(selection_counts 3 (by decide) (by decide)).1,
    (selection_counts 3 (by decide) (by decide)).2.1,
    (selection_counts 3 (by decide) (by decide)).2.2.1 1 (by decide) (by decide)⟩

/-! ## C15, C16 and C13 -/

/-- C15: for every capacity `c ≥ 1`, every window (those of at most `c` words among
them) and every word `w`, `addOrShiftWord w c` yields the last `c` words of the window
followed by `w`: it appends while the window is shorter than `c`; at length `c` it drops
the oldest word, keeps the others in order and puts `w` last (for `c = 1` the single
word is replaced); the new length is `min (length + 1) c`. -/
theorem addOrShiftWord_slides (s : MarkovWordSequence) (w : String) (c : Nat) (hc : 1 ≤ c) :
    (s.addOrShiftWord w c).vsWords = lastWords c (s.vsWords ++ [w]) ∧
    (s.vsWords.length < c → (s.addOrShiftWord w c).vsWords = s.vsWords ++ [w]) ∧
    (s.vsWords.length = c → (s.addOrShiftWord w c).vsWords = s.vsWords.tail ++ [w]) ∧
    (c = 1 → s.vsWords.length = 1 → (s.addOrShiftWord w c).vsWords = [w]) ∧
    (s.addOrShiftWord w c).vsWords.length = min (s.vsWords.length + 1) c := by
  have hfull : s.vsWords.length = c → (s.addOrShiftWord w c).vsWords = s.vsWords.tail ++ [w] := by
    intro h
    rw [addOrShiftWord_eq]
    unfold lastWords
    cases hs : s.vsWords with
    | nil => rw [hs] at h; simp at h; omega
    | cons x rest =>
      rw [hs] at h
      have hl : ((x :: rest) ++ [w]).length - c = 1 := by
        simp only [List.length_cons, List.length_append, List.length_singleton, List.length_nil] at h ⊢
        omega
      rw [hl]
      rfl
  refine ⟨addOrShiftWord_eq s w c, ?_, hfull, ?_, ?_⟩
  · intro h
    rw [addOrShiftWord_eq]
    unfold lastWords
    rw [List.length_append, List.length_singleton, show s.vsWords.length + 1 - c = 0 by omega,
      List.drop_zero]
  · intro h1 h2
    rw [hfull (by omega)]
    cases hs : s.vsWords with
    | nil => rw [hs] at h2; simp at h2
    | cons x rest =>
      rw [hs] at h2
      have : rest = [] := by
        simp only [List.length_cons] at h2
        exact List.length_eq_zero.mp (by omega)
      rw [this]
      rfl
  · rw [addOrShiftWord_eq, lastWords_length, List.length_append, List.length_singleton]

/-- Witness of C15: at capacity 2 the window `[x, y]` slides to `[y, z]`. -/
theorem addOrShiftWord_slides_witness :
    (MarkovWordSequence.addOrShiftWord ⟨["x", "y"]⟩ "z" 2).vsWords = ["y", "z"] :=
  (addOrShiftWord_slides ⟨["x", "y"]⟩ "z" 2 (by decide)).2.2.1 rfl

theorem selectRandomElement_of_ne_nil {T : Type} (vs : List T) (mt : RandomSource)
    (h : vs ≠ []) :
    ∃ i, ∃ hi : i < vs.length, i = selectIndex vs.length mt.draw.1 ∧
      selectRandomElement vs mt = (some (vs.get ⟨i, hi⟩), mt.draw.2) := by
  have hlen := List.length_pos.mpr h
  have hidx := selectIndex_lt vs.length mt.draw.1 hlen
  refine ⟨_, hidx, rfl, ?_⟩
  simp only [selectRandomElement]
  rw [if_neg (by omega), List.get?_eq_get hidx]

theorem selectRandomEntry_of_ne_nil {K V : Type} (m : List (K × V)) (mt : RandomSource)
    (h : m ≠ []) :
    ∃ e ∈ m, selectRandomEntry m mt = ((some e.1, some e.2), mt.draw.2) := by
  have hlen := List.length_pos.mpr h
  have hidx := selectIndex_lt m.length mt.draw.1 hlen
  refine ⟨m.get ⟨_, hidx⟩, List.get_mem _ _ _, ?_⟩
  simp only [selectRandomEntry]
  rw [if_neg (by omega), advanceIterator_eq_get?, List.get?_eq_get hidx]

/-- C16: for every raw random value, `selectRandomElement` over a sequence returns none
exactly when the sequence is empty, and otherwise the element at an index below the
length, which for a single element is that element; the keyed overload and
`getRandomChild` return the pair of nulls exactly when the child map is absent or empty,
and otherwise the key and the node of one entry of the map. -/
theorem selectRandomElement_in_bounds {T K V : Type} (vs : List T) (x : T)
    (m : List (K × V)) (n : MarkovNode) (mt : RandomSource) :
    ((selectRandomElement vs mt).1 = none ↔ vs = []) ∧
    (∀ v, (selectRandomElement vs mt).1 = some v →
      ∃ i, ∃ hi : i < vs.length, i = selectIndex vs.length mt.draw.1 ∧ vs.get ⟨i, hi⟩ = v) ∧
    (selectRandomElement [x] mt).1 = some x ∧
    ((selectRandomEntry m mt).1 = (none, none) ↔ m = []) ∧
    (m ≠ [] → ∃ e ∈ m, (selectRandomEntry m mt).1 = (some e.1, some e.2)) ∧
    ((n.getRandomChild mt).1 = (none, none)
      ↔ n.pmmnChildren = none ∨ n.pmmnChildren = some []) ∧
    (¬ (n.pmmnChildren = none ∨ n.pmmnChildren = some []) →
      ∃ e ∈ n.entries, (n.getRandomChild mt).1 = (some e.1, some e.2)) := by
  have hentries : n.entries = [] ↔ n.pmmnChildren = none ∨ n.pmmnChildren = some [] := by
    obtain ⟨mm, c⟩ := n
    cases mm with
    | none => simp [MarkovNode.entries, MarkovNode.pmmnChildren]
    | some l => simp [MarkovNode.entries, MarkovNode.pmmnChildren]
  refine ⟨⟨fun h => ?_, fun h => ?_⟩, fun v hv => ?_, ?_, ⟨fun h => ?_, fun h => ?_⟩,
    fun h => ?_, ⟨fun h => ?_, fun h => ?_⟩, fun h => ?_⟩
  · by_contra hne
    obtain ⟨i, hi, -, heq⟩ := selectRandomElement_of_ne_nil vs mt hne
    rw [heq] at h
    cases h
  · subst h
    rfl
  · have hne : vs ≠ [] := by
      intro h
      subst h
      cases hv
    obtain ⟨i, hi, hidx, heq⟩ := selectRandomElement_of_ne_nil vs mt hne
    rw [heq] at hv
    exact ⟨i, hi, hidx, Option.some.inj hv⟩
  · rfl
  · by_contra hne
    obtain ⟨e, -, heq⟩ := selectRandomEntry_of_ne_nil m mt hne
    rw [heq] at h
    cases h
  · subst h
    rfl
  · obtain ⟨e, he, heq⟩ := selectRandomEntry_of_ne_nil m mt h
    exact ⟨e, he, by rw [heq]⟩
  · rw [← hentries]
    by_contra hne
    obtain ⟨e, -, heq⟩ := getRandomChild_of_entries_ne n mt hne
    rw [heq] at h
    cases h
  · rw [getRandomChild_of_entries_nil n mt (hentries.mpr h)]
  · obtain ⟨e, he, heq⟩ := getRandomChild_of_entries_ne n mt (fun hh => h (hentries.mp hh))
    exact ⟨e, he, by rw [heq]⟩

/-- Whatever the supply holds, the loop of `feedModel` ends in the state reached by
recording the words before the first empty or over-long one and resolving the last
window. -/
theorem feedLoop_state (d : Nat) (ws : List String) :
    ∀ st : MarkovChain.FeedState, (MarkovChain.feedLoop d ws st).2
      = MarkovChain.feedResolve (MarkovChain.feedRounds d st (validPrefix ws)) := by
  induction ws with
  | nil =>
    intro st
    simp only [MarkovChain.feedLoop, StaticMarkovWordSource.getNextWord, validPrefix,
      List.takeWhile_nil, MarkovChain.feedRounds, List.foldl_nil]
  | cons w ws ih =>
    intro st
    by_cases hlen : w.length > szMarkovMaxWordLength
    · have hv : ¬ ValidWord w := fun h => absurd h.2 (Nat.not_le.mpr hlen)
      simp only [MarkovChain.feedLoop, StaticMarkovWordSource.getNextWord, if_pos hlen,
        validPrefix, List.takeWhile_cons, decide_eq_true_eq, if_neg hv, MarkovChain.feedRounds,
        List.foldl_nil]
    · by_cases hw : w = ""
      · have hv : ¬ ValidWord w := fun h => h.1 hw
        simp only [MarkovChain.feedLoop, StaticMarkovWordSource.getNextWord, if_neg hlen,
          if_pos hw, validPrefix, List.takeWhile_cons, decide_eq_true_eq, if_neg hv,
          MarkovChain.feedRounds, List.foldl_nil]
      · have hv : ValidWord w := ⟨hw, Nat.not_lt.mp hlen⟩
        simp only [MarkovChain.feedLoop, StaticMarkovWordSource.getNextWord, if_neg hlen,
          if_neg hw, validPrefix, List.takeWhile_cons, decide_eq_true_eq, if_pos hv,
          MarkovChain.feedRounds, List.foldl_cons]
        exact ih _

theorem validPrefix_of_valid (ws : List String) (h : ∀ w ∈ ws, ValidWord w) :
    validPrefix ws = ws := by
  unfold validPrefix
  rw [List.takeWhile_eq_self_iff]
  intro w hw
  exact decide_eq_true (h w hw)

theorem count_feedResolve (st : MarkovChain.FeedState) :
    (MarkovChain.feedResolve st).uiProcessedWordCount = st.uiProcessedWordCount := by
  unfold MarkovChain.feedResolve
  split <;> rfl

theorem count_feedRecord (d : Nat) (st : MarkovChain.FeedState) (w : String) :
    (MarkovChain.feedRecord d st w).uiProcessedWordCount
      = (st.uiProcessedWordCount + 1) % 2 ^ 32 := by
  unfold MarkovChain.feedRecord
  split <;> rfl

theorem count_feedRounds (d : Nat) (st : MarkovChain.FeedState) (pre : List String) :
    (MarkovChain.feedRounds d st pre).uiProcessedWordCount % 2 ^ 32
      = (st.uiProcessedWordCount + pre.length) % 2 ^ 32 := by
  induction pre using List.reverseRecOn with
  | nil => rfl
  | append_singleton pre w ih =>
    rw [feedRounds_snoc, count_feedRecord, count_feedResolve, List.length_append,
      List.length_singleton, Nat.mod_mod, Nat.add_mod, ih, ← Nat.add_mod, Nat.add_assoc]

theorem count_feedRounds_lt (d : Nat) (st : MarkovChain.FeedState) (pre : List String)
    (h : st.uiProcessedWordCount < 2 ^ 32) :
    (MarkovChain.feedRounds d st pre).uiProcessedWordCount < 2 ^ 32 := by
  induction pre using List.reverseRecOn with
  | nil => exact h
  | append_singleton pre w _ =>
    rw [feedRounds_snoc, count_feedRecord]
    exact Nat.mod_lt _ (by decide)

theorem feedModel_count (c : MarkovChain) (ws : List String) :
    (c.feedModel (StaticMarkovWordSource.new ws)).uiProcessedWordCount
      = (validPrefix ws).length % 2 ^ 32 := by
  have hst := feedLoop_state c.uiDepth ws c.feedStart
  have hcount := count_feedRounds c.uiDepth c.feedStart (validPrefix ws)
  have hlt := count_feedRounds_lt c.uiDepth c.feedStart (validPrefix ws)
    (show (0 : Nat) < 2 ^ 32 by decide)
  unfold MarkovChain.feedModel
  simp only [StaticMarkovWordSource.new, hst, count_feedResolve]
  rw [Nat.mod_eq_of_lt hlt] at hcount
  rw [hcount]
  simp [MarkovChain.feedStart]

/-- Counterexample to C11 as stated: the words `[a, "", b]` are each of at most 1023
characters, yet the feed returns with the counter at 1, not 3: the empty word is taken
for the end of the supply. -/
theorem feed_stops_at_empty_word :
    (∀ w ∈ ["a", "", "b"], w.length ≤ 1023) ∧
    ((MarkovChain.new 1 (fun _ => 0)).feedModel
      (StaticMarkovWordSource.new ["a", "", "b"])).result = .ok () ∧
    ((MarkovChain.new 1 (fun _ => 0)).feedModel
      (StaticMarkovWordSource.new ["a", "", "b"])).uiProcessedWordCount = 1 ∧
    ["a", "", "b"].length = 3 :=
  ⟨by decide, rfl, rfl, rfl⟩

/-- C11, amended: for every list of fewer than `2^32` non-empty words, each of at most
1023 characters, a feed through a static supply returns normally with the processed-word
counter equal to the length of the list; for any list the counter ends at the number of
words before the first empty or over-long word (as a 32-bit value). -/
theorem feed_consumes_valid_words (c : MarkovChain) (ws : List String)
    (hvalid : ∀ w ∈ ws, ValidWord w) (hlen : ws.length < 2 ^ 32) :
    (c.feedModel (StaticMarkovWordSource.new ws)).result = .ok () ∧
    (c.feedModel (StaticMarkovWordSource.new ws)).uiProcessedWordCount = ws.length ∧
    ∀ vs : List String, (c.feedModel (StaticMarkovWordSource.new vs)).uiProcessedWordCount
      = (validPrefix vs).length % 2 ^ 32 := by
  refine ⟨(feedModel_valid c ws hvalid).1, ?_, feedModel_count c⟩
  rw [feedModel_count, validPrefix_of_valid ws hvalid, Nat.mod_eq_of_lt hlen]

/-- Witness of C11, amended: the feed of `[a, b, a]` leaves the counter at 3. -/
theorem feed_consumes_valid_words_witness :
    ((MarkovChain.new 2 (fun _ => 0)).feedModel
      (StaticMarkovWordSource.new ["a", "b", "a"])).uiProcessedWordCount = 3 :=
  (feed_consumes_valid_words (MarkovChain.new 2 (fun _ => 0)) ["a", "b", "a"] (by decide)
    (by decide)).2.1

/-! ## C14: one step of generation -/

theorem mem_expectedCandidates (d : Nat) (ws : List String) (path : List String) (x : String) :
    x ∈ expectedCandidates d ws path
      ↔ ∃ i, 1 ≤ i ∧ i < ws.length ∧ windowAt d ws i = path ∧ ws[i]? = some x := by
  unfold expectedCandidates
  rw [List.mem_filterMap]
  constructor
  · rintro ⟨i, hi, hx⟩
    by_cases hc : 1 ≤ i ∧ windowAt d ws i = path
    · rw [if_pos hc] at hx
      exact ⟨i, hc.1, List.mem_range.mp hi, hc.2, hx⟩
    · rw [if_neg hc] at hx
      cases hx
  · rintro ⟨i, h1, h2, h3, h4⟩
    exact ⟨i, List.mem_range.mpr h2, by rw [if_pos ⟨h1, h3⟩]; exact h4⟩

theorem nodeAt_feedResolve_mono (st : MarkovChain.FeedState) (path : List String)
    (h : (st.mnTreeRoot.nodeAt path).isSome) :
    ((MarkovChain.feedResolve st).mnTreeRoot.nodeAt path).isSome := by
  rw [tree_feedResolve]
  exact nodeAt_resolvePath_mono _ _ _ h

theorem nodeAt_feedRecord_mono (d : Nat) (st : MarkovChain.FeedState) (w : String)
    (path : List String) (h : (st.mnTreeRoot.nodeAt path).isSome) :
    ((MarkovChain.feedRecord d st w).mnTreeRoot.nodeAt path).isSome := by
  unfold MarkovChain.feedRecord
  split
  · simp only [nodeAt_updateAt_addCandidate]
    exact h
  · exact h

/-- The tree a feed leaves behind, whatever the supply holds. -/
theorem feedModel_tree (c : MarkovChain) (ws : List String) :
    (c.feedModel (StaticMarkovWordSource.new ws)).chain.mnTreeRoot
      = MarkovNode.resolvePath (lastWords c.uiDepth (validPrefix ws))
          (MarkovChain.feedRounds c.uiDepth c.feedStart (validPrefix ws)).mnTreeRoot := by
  have hst := feedLoop_state c.uiDepth ws c.feedStart
  unfold MarkovChain.feedModel
  simp only [StaticMarkovWordSource.new, hst, tree_feedResolve, window_feedRounds]

theorem candidatesAt_feedModel (c : MarkovChain) (hd : 1 ≤ c.uiDepth) (ws : List String)
    (path : List String) :
    MarkovNode.candidatesAt path (c.feedModel (StaticMarkovWordSource.new ws)).chain.mnTreeRoot
      = MarkovNode.candidatesAt path c.mnTreeRoot
        ++ expectedCandidates c.uiDepth (validPrefix ws) path := by
  rw [feedModel_tree, candidatesAt_resolvePath, candidatesAt_feedRounds c hd]

theorem scanSeparators_default (c : Char) (buf : String) (hlen : 1 ≤ buf.length)
    (hlen2 : buf.length < 2 ^ 64) :
    StreamingMarkovWordSource.scanSeparators c buf vsWhitespaceCharacters [0, 0, 0, 0]
      = if isWhitespace c = true then
          (if 1 < buf.length then .word (String.mk (buf.data.take (buf.length - 1)))
           else .cleared)
        else .scanned [0, 0, 0, 0] := by
  have hsz : (buf.length + 2 ^ 64 - 1) % 2 ^ 64 = buf.length - 1 := by omega
  have h1 : (" " : String).length = 1 := rfl
  have h2 : ("\t" : String).length = 1 := rfl
  have h3 : ("\n" : String).length = 1 := rfl
  have h4 : ("\r" : String).length = 1 := rfl
  have d1 : (" " : String).data[0]? = some ' ' := rfl
  have d2 : ("\t" : String).data[0]? = some '\t' := rfl
  have d3 : ("\n" : String).data[0]? = some '\n' := rfl
  have d4 : ("\r" : String).data[0]? = some '\r' := rfl
  have hpos : (buf.length - 1 > 0) = (1 < buf.length) := by
    apply propext
    omega
  simp only [vsWhitespaceCharacters, StreamingMarkovWordSource.scanSeparators, h1, h2, h3, h4,
    d1, d2, d3, d4, Nat.zero_add, hsz, hpos, Option.some.injEq,
    show ¬ (0 = 1) by decide, if_false]
  by_cases c1 : ' ' = c
  · subst c1
    by_cases hb : 1 < buf.length <;> simp [isWhitespace, hb]
  · by_cases c2 : '\t' = c
    · subst c2
      by_cases hb : 1 < buf.length <;> simp [isWhitespace, hb]
    · by_cases c3 : '\n' = c
      · subst c3
        by_cases hb : 1 < buf.length <;> simp [isWhitespace, hb]
      · by_cases c4 : '\r' = c
        · subst c4
          by_cases hb : 1 < buf.length <;> simp [isWhitespace, hb]
        · have : isWhitespace c = false := by
            simp only [isWhitespace, Bool.or_eq_false_iff, decide_eq_false_iff_not]
            exact ⟨⟨⟨fun h => c1 h.symm, fun h => c2 h.symm⟩, fun h => c3 h.symm⟩,
              fun h => c4 h.symm⟩
          simp [c1, c2, c3, c4, this]

theorem tokens_run (acc : List Char) (hacc : ∀ x ∈ acc, isWhitespace x = false) :
    tokens acc = if acc = [] then [] else [String.mk acc] := by
  have h : acc.splitOnP isWhitespace = [acc] :=
    List.splitOnP_eq_single _ _ (fun x hx => by simp [hacc x hx])
  unfold tokens
  rw [h]
  by_cases ha : acc = [] <;> simp [ha]

theorem tokens_separator (acc : List Char) (hacc : ∀ x ∈ acc, isWhitespace x = false)
    (c : Char) (hc : isWhitespace c = true) (rest : List Char) :
    tokens (acc ++ c :: rest) = (if acc = [] then [] else [String.mk acc]) ++ tokens rest := by
  have h : (acc ++ c :: rest).splitOnP isWhitespace = acc :: rest.splitOnP isWhitespace :=
    List.splitOnP_first _ _ (fun x hx => by simp [hacc x hx]) c hc rest
  unfold tokens
  rw [h]
  by_cases ha : acc = [] <;> simp [ha]

theorem tokens_first_run (rest : List Char) :
    ∀ acc : List Char, (∀ x ∈ acc, isWhitespace x = false) → acc ≠ [] →
      ∃ t ∈ tokens (acc ++ rest), acc.length ≤ t.length := by
  induction rest with
  | nil =>
    intro acc hacc hne
    refine ⟨String.mk acc, ?_, Nat.le_refl _⟩
    rw [List.append_nil, tokens_run acc hacc, if_neg hne]
    exact List.mem_singleton.2 rfl
  | cons c rest ih =>
    intro acc hacc hne
    by_cases hc : isWhitespace c = true
    · refine ⟨String.mk acc, ?_, Nat.le_refl _⟩
      rw [tokens_separator acc hacc c hc rest, if_neg hne]
      exact List.mem_append_left _ (List.mem_singleton.2 rfl)
    · have hc1 : isWhitespace c = false := by simpa using hc
      have hacc1 : ∀ x ∈ acc ++ [c], isWhitespace x = false := by
        intro x hx
        rcases List.mem_append.1 hx with h | h
        · exact hacc x h
        · rw [List.mem_singleton.1 h]
          exact hc1
      obtain ⟨t, ht, hlen⟩ := ih (acc ++ [c]) hacc1 (by simp)
      refine ⟨t, ?_, ?_⟩
      · rw [List.append_assoc] at ht
        exact ht
      · rw [List.length_append] at hlen
        exact Nat.le_trans (Nat.le_add_right _ _) hlen

theorem nextWords_eof (k : Nat) (p : List Char) (seps : List String) :
    StreamingMarkovWordSource.nextWords k ⟨⟨p, true⟩, seps⟩ = List.replicate k (.ok "") := by
  induction k with
  | zero => rfl
  | succ k ih =>
    simp only [StreamingMarkovWordSource.nextWords, StreamingMarkovWordSource.getNextWord,
      if_true, ih, List.replicate_succ]

theorem readLoop_default_step (c : Char) (rest acc : List Char)
    (hlen : acc.length + 1 ≤ 1023) :
    StreamingMarkovWordSource.readLoop vsWhitespaceCharacters (c :: rest) (String.mk acc)
        [0, 0, 0, 0]
      = if isWhitespace c = true then
          (if acc = [] then
            StreamingMarkovWordSource.readLoop vsWhitespaceCharacters rest "" [0, 0, 0, 0]
           else (.ok (String.mk acc), ⟨rest, false⟩))
        else StreamingMarkovWordSource.readLoop vsWhitespaceCharacters rest
          (String.mk (acc ++ [c])) [0, 0, 0, 0] := by
  have hpush : (String.mk acc).push c = String.mk (acc ++ [c]) := rfl
  have hl : (String.mk (acc ++ [c])).length = acc.length + 1 := by
    show (acc ++ [c]).length = acc.length + 1
    simp
  have hscan := scanSeparators_default c (String.mk (acc ++ [c])) (by rw [hl]; omega)
    (by rw [hl]; omega)
  rw [StreamingMarkovWordSource.readLoop]
  rw [hpush, hscan, hl]
  have hne : vsWhitespaceCharacters.isEmpty = false := rfl
  have hmap : vsWhitespaceCharacters.map (fun _ => 0) = [0, 0, 0, 0] := rfl
  rw [hne, hmap]
  have hsz : ¬ (acc.length + 1 > szMarkovMaxWordLength) := by
    unfold szMarkovMaxWordLength
    omega
  simp only [Bool.false_eq_true, if_false, hsz]
  by_cases hc : isWhitespace c = true
  · simp only [hc, if_true]
    by_cases ha : acc = []
    · subst ha
      simp
    · have h1 : 1 < acc.length + 1 := by
        have := List.length_pos.2 ha
        omega
      simp [h1, ha]
  · simp [hc]

theorem tokens_clean (input : List Char) :
    ∀ acc : List Char, (∀ x ∈ acc, isWhitespace x = false) →
      ∀ t ∈ tokens (acc ++ input), t ≠ "" ∧ ∀ ch ∈ t.data, isWhitespace ch = false := by
  induction input with
  | nil =>
    intro acc hacc t ht
    rw [List.append_nil, tokens_run acc hacc] at ht
    by_cases ha : acc = []
    · simp [ha] at ht
    · rw [if_neg ha, List.mem_singleton] at ht
      subst ht
      exact ⟨fun h => ha (congrArg String.data h), hacc⟩
  | cons c rest ih =>
    intro acc hacc t ht
    by_cases hc : isWhitespace c = true
    · rw [tokens_separator acc hacc c hc rest] at ht
      rcases List.mem_append.1 ht with h | h
      · by_cases ha : acc = []
        · simp [ha] at h
        · rw [if_neg ha, List.mem_singleton] at h
          subst h
          exact ⟨fun h => ha (congrArg String.data h), hacc⟩
      · exact ih [] (fun _ hx => absurd hx (List.not_mem_nil _)) t h
    · have hc1 : isWhitespace c = false := by simpa using hc
      have hacc1 : ∀ x ∈ acc ++ [c], isWhitespace x = false := by
        intro x hx
        rcases List.mem_append.1 hx with h | h
        · exact hacc x h
        · rw [List.mem_singleton.1 h]
          exact hc1
      refine ih (acc ++ [c]) hacc1 t ?_
      rw [List.append_assoc]
      exact ht

theorem readLoop_default_words (input : List Char) :
    ∀ acc : List Char, (∀ x ∈ acc, isWhitespace x = false) →
      (∀ t ∈ tokens (acc ++ input), t.length < 1023) → ∀ k : Nat,
      (StreamingMarkovWordSource.readLoop vsWhitespaceCharacters input (String.mk acc)
          [0, 0, 0, 0]).1 ::
        StreamingMarkovWordSource.nextWords ((tokens (acc ++ input)).length + k)
          ⟨(StreamingMarkovWordSource.readLoop vsWhitespaceCharacters input (String.mk acc)
            [0, 0, 0, 0]).2, vsWhitespaceCharacters⟩
        = (tokens (acc ++ input)).map .ok ++ List.replicate (k + 1) (.ok "") := by
  induction input with
  | nil =>
    intro acc hacc _ k
    rw [List.append_nil, tokens_run acc hacc, StreamingMarkovWordSource.readLoop]
    by_cases ha : acc = []
    · subst ha
      simp only [if_true, List.length_nil, Nat.zero_add, nextWords_eof, List.map_nil,
        List.nil_append, List.replicate_succ]
    · simp only [if_neg ha, List.length_singleton, nextWords_eof, List.map_cons, List.map_nil,
        List.singleton_append, Nat.add_comm 1 k]
  | cons c rest ih =>
    intro acc hacc hshort k
    have hnil : ∀ x ∈ ([] : List Char), isWhitespace x = false :=
      fun _ hx => absurd hx (List.not_mem_nil _)
    by_cases hc : isWhitespace c = true
    · have htok := tokens_separator acc hacc c hc rest
      have hrest : ∀ t ∈ tokens ([] ++ rest), t.length < 1023 := by
        intro t ht
        refine hshort t ?_
        rw [htok]
        exact List.mem_append_right _ ht
      have hih := ih [] hnil hrest
      have hmap : vsWhitespaceCharacters.map (fun _ => 0) = [0, 0, 0, 0] := rfl
      by_cases ha : acc = []
      · subst ha
        rw [readLoop_default_step c rest [] (by decide), if_pos hc, if_pos rfl, htok, if_pos rfl,
          List.nil_append]
        exact hih k
      · have hlen : acc.length + 1 ≤ 1023 := by
          have h := hshort (String.mk acc) (by
            rw [htok, if_neg ha]
            exact List.mem_append_left _ (List.mem_singleton.2 rfl))
          have h1 : (String.mk acc).length = acc.length := rfl
          omega
        rw [readLoop_default_step c rest acc hlen, if_pos hc, if_neg ha, htok, if_neg ha]
        simp only [List.singleton_append, List.length_cons, List.map_cons, List.cons_append,
          List.cons.injEq, true_and]
        rw [Nat.add_right_comm, StreamingMarkovWordSource.nextWords]
        simp only [StreamingMarkovWordSource.getNextWord, Bool.false_eq_true, if_false, hmap]
        exact hih k
    · have hc1 : isWhitespace c = false := by simpa using hc
      have hacc1 : ∀ x ∈ acc ++ [c], isWhitespace x = false := by
        intro x hx
        rcases List.mem_append.1 hx with h | h
        · exact hacc x h
        · rw [List.mem_singleton.1 h]
          exact hc1
      have happ : acc ++ c :: rest = (acc ++ [c]) ++ rest := by rw [List.append_assoc]; rfl
      have hlen : acc.length + 1 ≤ 1023 := by
        obtain ⟨t, ht, hle⟩ := tokens_first_run rest (acc ++ [c]) hacc1 (by simp)
        have h := hshort t (by rw [happ]; exact ht)
        rw [List.length_append] at hle
        simp only [List.length_singleton] at hle
        omega
      rw [readLoop_default_step c rest acc hlen, if_neg hc, happ]
      exact ih (acc ++ [c]) hacc1 (by rw [← happ]; exact hshort) k

/-- C17: with the default separators, on an input whose tokens are all shorter than 1023
characters, the successive results of `getNextWord` are the tokens of the input in order,
and after them the empty end marker at every further call; a token is never empty and
holds no separator character. -/
theorem streaming_words_are_tokens (input : List Char)
    (hshort : ∀ t ∈ tokens input, t.length < 1023) (k : Nat) :
    StreamingMarkovWordSource.nextWords ((tokens input).length + (k + 1))
        (StreamingMarkovWordSource.new input vsWhitespaceCharacters)
      = (tokens input).map .ok ++ List.replicate (k + 1) (.ok "")
    ∧ ∀ t ∈ tokens input, t ≠ "" ∧ ∀ ch ∈ t.data, isWhitespace ch = false := by
  have hnil : ∀ x ∈ ([] : List Char), isWhitespace x = false :=
    fun _ hx => absurd hx (List.not_mem_nil _)
  refine ⟨?_, tokens_clean input [] hnil⟩
  have h := readLoop_default_words input [] hnil hshort k
  rw [← Nat.add_assoc, StreamingMarkovWordSource.nextWords]
  exact h

theorem streaming_words_are_tokens_witness :
    (∀ t ∈ tokens " ab  c\n".data, t.length < 1023) ∧
    StreamingMarkovWordSource.nextWords 4
        (StreamingMarkovWordSource.new " ab  c\n".data vsWhitespaceCharacters)
      = [.ok "ab", .ok "c", .ok "", .ok ""] :=
  ⟨by decide, (streaming_words_are_tokens " ab  c\n".data (by decide) 1).1⟩

theorem readLoop_default_run (run : List Char) :
    ∀ acc : List Char, (∀ x ∈ run, isWhitespace x = false) → acc.length + run.length ≤ 1023 →
      ∀ rest : List Char,
        StreamingMarkovWordSource.readLoop vsWhitespaceCharacters (run ++ rest) (String.mk acc)
            [0, 0, 0, 0]
          = StreamingMarkovWordSource.readLoop vsWhitespaceCharacters rest
              (String.mk (acc ++ run)) [0, 0, 0, 0] := by
  induction run with
  | nil =>
    intro acc _ _ rest
    rw [List.nil_append, List.append_nil]
  | cons c run ih =>
    intro acc hrun hlen rest
    rw [List.length_cons] at hlen
    have hc : ¬ isWhitespace c = true := by
      rw [hrun c (List.mem_cons_self _ _)]
      decide
    rw [List.cons_append, readLoop_default_step c (run ++ rest) acc (by omega), if_neg hc,
      ih (acc ++ [c]) (fun x hx => hrun x (List.mem_cons_of_mem _ hx))
        (by rw [List.length_append, List.length_singleton]; omega) rest,
      List.append_assoc]
    rfl

theorem readLoop_full_buffer (seps : List String) (hseps : seps.isEmpty = false) (c : Char)
    (rest acc : List Char) (hlen : acc.length = 1023) (vis : List Nat) :
    StreamingMarkovWordSource.readLoop seps (c :: rest) (String.mk acc) vis
      = (.error .MarkovConstraintException, ⟨rest, false⟩) := by
  have hpush : (String.mk acc).push c = String.mk (acc ++ [c]) := rfl
  have hl : (String.mk (acc ++ [c])).length = acc.length + 1 := by
    show (acc ++ [c]).length = acc.length + 1
    simp
  have hsz : acc.length + 1 > szMarkovMaxWordLength := by
    unfold szMarkovMaxWordLength
    omega
  rw [StreamingMarkovWordSource.readLoop, hseps, hpush, hl, if_neg (by decide), if_pos hsz]

theorem fullLengthToken_length : fullLengthToken.length = 1023 :=
  List.length_replicate _ _

theorem fullLengthToken_clean : ∀ x ∈ fullLengthToken, isWhitespace x = false := by
  intro x hx
  rw [List.eq_of_mem_replicate hx]
  decide

/-- C12: a token of exactly 1023 characters that a separator follows makes the streaming
supply raise the constraint exception, although it is a token of the input no longer than
1023 characters; the same token is returned when the end of the stream follows it, and
the static supply returns it as well. -/
theorem streaming_rejects_full_length_token :
    (String.mk fullLengthToken).length = 1023
    ∧ tokens (fullLengthToken ++ [' ']) = [String.mk fullLengthToken]
    ∧ (StreamingMarkovWordSource.new (fullLengthToken ++ [' '])
          vsWhitespaceCharacters).getNextWord.1 = .error .MarkovConstraintException
    ∧ (StreamingMarkovWordSource.new fullLengthToken vsWhitespaceCharacters).getNextWord.1
        = .ok (String.mk fullLengthToken)
    ∧ (StaticMarkovWordSource.new [String.mk fullLengthToken]).getNextWord.1
        = .ok (String.mk fullLengthToken) := by
  have hmap : vsWhitespaceCharacters.map (fun _ => 0) = [0, 0, 0, 0] := rfl
  have hne : fullLengthToken ≠ [] := by
    intro h
    have := fullLengthToken_length
    rw [h] at this
    exact absurd this (by decide)
  have hrun := fun rest => readLoop_default_run fullLengthToken [] fullLengthToken_clean
    (by rw [fullLengthToken_length]; decide) rest
  refine ⟨fullLengthToken_length, ?_, ?_, ?_, ?_⟩
  · rw [tokens_separator fullLengthToken fullLengthToken_clean ' ' (by decide) [], if_neg hne]
    rfl
  · simp only [StreamingMarkovWordSource.getNextWord, StreamingMarkovWordSource.new,
      Bool.false_eq_true, if_false, hmap]
    show (StreamingMarkovWordSource.readLoop vsWhitespaceCharacters (fullLengthToken ++ [' '])
      (String.mk []) [0, 0, 0, 0]).1 = _
    rw [hrun, List.nil_append, readLoop_full_buffer vsWhitespaceCharacters rfl _ _ _ fullLengthToken_length]
  · simp only [StreamingMarkovWordSource.getNextWord, StreamingMarkovWordSource.new,
      Bool.false_eq_true, if_false, hmap]
    show (StreamingMarkovWordSource.readLoop vsWhitespaceCharacters fullLengthToken
      (String.mk []) [0, 0, 0, 0]).1 = _
    have h := hrun []
    rw [List.append_nil, List.nil_append] at h
    rw [h, StreamingMarkovWordSource.readLoop]
  · have hl : ¬ (String.mk fullLengthToken).length > szMarkovMaxWordLength := by
      show ¬ fullLengthToken.length > 1023
      rw [fullLengthToken_length]
      decide
    simp only [StaticMarkovWordSource.getNextWord, StaticMarkovWordSource.new, if_neg hl]

/-- C18: with the single separator `ab`, the first word read from the input `aab` is
`aab`, which holds the separator as a substring. -/
theorem streaming_misses_overlapping_separator :
    (StreamingMarkovWordSource.new "aab".data ["ab"]).getNextWord.1 = .ok "aab"
    ∧ "ab".data <:+: "aab".data
    ∧ (StreamingMarkovWordSource.new "aab".data ["ab"]).getNextWord.2.isWordStream
        = ⟨[], true⟩ :=
  ⟨rfl, ⟨['a'], [], rfl⟩, rfl⟩

theorem nodeAt_new_isSome (path : List String) :
    (MarkovNode.new.nodeAt path).isSome = true ↔ path = [] := by
  cases path with
  | nil => exact ⟨fun _ => rfl, fun _ => rfl⟩
  | cons p path =>
    constructor
    · intro h
      have : MarkovNode.new.nodeAt (p :: path) = none := rfl
      rw [this] at h
      cases h
    · intro h
      cases h

/-- The nodes after `resolvePath`: those there before, and the prefixes of the path. -/
theorem nodeAt_resolvePath_iff (ws : List String) :
    ∀ (path : List String) (n : MarkovNode),
      ((MarkovNode.resolvePath ws n).nodeAt path).isSome = true
        ↔ (n.nodeAt path).isSome = true ∨ path <+: ws := by
  induction ws with
  | nil =>
    intro path n
    constructor
    · intro h
      exact Or.inl h
    · rintro (h | h)
      · exact h
      · rw [List.prefix_nil.mp h]
        rfl
  | cons w ws ih =>
    intro path n
    cases path with
    | nil => exact ⟨fun _ => Or.inl rfl, fun _ => rfl⟩
    | cons p path =>
      by_cases hp : p = w
      · subst hp
        have hleft : ((MarkovNode.resolvePath (p :: ws) n).nodeAt (p :: path))
            = (MarkovNode.resolvePath ws ((n.findChild p).getD MarkovNode.new)).nodeAt path := by
          simp only [MarkovNode.nodeAt, findChild_resolvePath_head]
        rw [hleft, ih, List.cons_prefix_cons]
        cases hch : n.findChild p with
        | none =>
          have hn : n.nodeAt (p :: path) = none := by
            simp only [MarkovNode.nodeAt, hch]
          rw [hn, Option.getD_none, nodeAt_new_isSome]
          constructor
          · rintro (h | h)
            · subst h
              exact Or.inr ⟨rfl, List.nil_prefix⟩
            · exact Or.inr ⟨rfl, h⟩
          · rintro (h | h)
            · cases h
            · exact Or.inr h.2
        | some ch =>
          have hn : n.nodeAt (p :: path) = ch.nodeAt path := by
            simp only [MarkovNode.nodeAt, hch]
          rw [hn, Option.getD_some]
          constructor
          · rintro (h | h)
            · exact Or.inl h
            · exact Or.inr ⟨rfl, h⟩
          · rintro (h | h)
            · exact Or.inl h
            · exact Or.inr h.2
      · have hleft : ((MarkovNode.resolvePath (w :: ws) n).nodeAt (p :: path))
            = n.nodeAt (p :: path) := by
          simp only [MarkovNode.nodeAt, findChild_resolvePath_ne n hp]
        rw [hleft, List.cons_prefix_cons]
        constructor
        · intro h
          exact Or.inl h
        · rintro (h | h)
          · exact h
          · exact absurd h.1 hp

theorem nodeAt_feedRecord (d : Nat) (st : MarkovChain.FeedState) (w : String)
    (path : List String) :
    ((MarkovChain.feedRecord d st w).mnTreeRoot.nodeAt path).isSome
      = (st.mnTreeRoot.nodeAt path).isSome := by
  unfold MarkovChain.feedRecord
  split
  · simp only [nodeAt_updateAt_addCandidate]
  · rfl

/-- The nodes after the rounds of a feed on a chain that holds every node of a second
chain of the same order: its own, and those the same rounds leave on the second chain. -/
theorem nodeAt_feedRounds_union (c1 c2 : MarkovChain) (hd : c1.uiDepth = c2.uiDepth)
    (hsub : ∀ p, (c2.mnTreeRoot.nodeAt p).isSome = true → (c1.mnTreeRoot.nodeAt p).isSome = true)
    (pre : List String) :
    ∀ path : List String,
      ((MarkovChain.feedRounds c1.uiDepth c1.feedStart pre).mnTreeRoot.nodeAt path).isSome = true
        ↔ (c1.mnTreeRoot.nodeAt path).isSome = true
          ∨ ((MarkovChain.feedRounds c2.uiDepth c2.feedStart pre).mnTreeRoot.nodeAt
              path).isSome = true := by
  induction pre using List.reverseRecOn with
  | nil =>
    intro path
    constructor
    · intro h
      exact Or.inl h
    · rintro (h | h)
      · exact h
      · exact hsub path h
  | append_singleton pre w ih =>
    intro path
    rw [feedRounds_snoc, feedRounds_snoc, nodeAt_feedRecord, nodeAt_feedRecord,
      tree_feedResolve, tree_feedResolve, window_feedRounds, window_feedRounds,
      nodeAt_resolvePath_iff, nodeAt_resolvePath_iff, ih path, hd]
    constructor
    · rintro ((h | h) | h)
      · exact Or.inl h
      · exact Or.inr (Or.inl h)
      · exact Or.inr (Or.inr h)
    · rintro (h | h | h)
      · exact Or.inl (Or.inl h)
      · exact Or.inl (Or.inr h)
      · exact Or.inr h

/-- The nodes after a feed on a chain that holds every node of a second chain of the same
order: its own, and those of the second chain after the same feed. -/
theorem nodeAt_feedModel_union (c1 c2 : MarkovChain) (hd : c1.uiDepth = c2.uiDepth)
    (hsub : ∀ p, (c2.mnTreeRoot.nodeAt p).isSome = true → (c1.mnTreeRoot.nodeAt p).isSome = true)
    (ws : List String) (path : List String) :
    ((c1.feedModel (StaticMarkovWordSource.new ws)).chain.mnTreeRoot.nodeAt path).isSome = true
      ↔ (c1.mnTreeRoot.nodeAt path).isSome = true
        ∨ ((c2.feedModel (StaticMarkovWordSource.new ws)).chain.mnTreeRoot.nodeAt
            path).isSome = true := by
  rw [feedModel_tree, feedModel_tree, nodeAt_resolvePath_iff, nodeAt_resolvePath_iff,
    nodeAt_feedRounds_union c1 c2 hd hsub, hd]
  constructor
  · rintro ((h | h) | h)
    · exact Or.inl h
    · exact Or.inr (Or.inl h)
    · exact Or.inr (Or.inr h)
  · rintro (h | h | h)
    · exact Or.inl (Or.inl h)
    · exact Or.inl (Or.inr h)
    · exact Or.inr h

/-- C21: for every order `d ≥ 1` and lists `A` and `B` of valid words (non-empty, at most
1023 characters), feed `A` and then `B` to a fresh chain.  Both feeds return normally and
leave the generation window as it was.  A path reaches a node of the resulting tree
exactly when it reaches one in the tree of `A` alone or in the tree of `B` alone; the
candidate list along every path, and of every node, is its list from `A` followed by its
list from `B`; so every candidate was recorded for two adjacent words of `A` or two
adjacent words of `B`, and none for the last word of `A` and the first word of `B`. -/
theorem feeds_are_additive (d : Nat) (hd : 1 ≤ d) (seed seedB : RandomSource)
    (A B : List String) (hA : ∀ w ∈ A, ValidWord w) (hB : ∀ w ∈ B, ValidWord w)
    (path : List String) :
    (((MarkovChain.new d seed).feedModel (StaticMarkovWordSource.new A)).chain.feedModel
        (StaticMarkovWordSource.new B)).result = .ok () ∧
    (((MarkovChain.new d seed).feedModel (StaticMarkovWordSource.new A)).chain.feedModel
        (StaticMarkovWordSource.new B)).chain.msCurrentState
      = (MarkovChain.new d seed).msCurrentState ∧
    (((((MarkovChain.new d seed).feedModel (StaticMarkovWordSource.new A)).chain.feedModel
        (StaticMarkovWordSource.new B)).chain.mnTreeRoot.nodeAt path).isSome = true
      ↔ (((MarkovChain.new d seed).feedModel
            (StaticMarkovWordSource.new A)).chain.mnTreeRoot.nodeAt path).isSome = true
        ∨ (((MarkovChain.new d seedB).feedModel
            (StaticMarkovWordSource.new B)).chain.mnTreeRoot.nodeAt path).isSome = true) ∧
    MarkovNode.candidatesAt path
        (((MarkovChain.new d seed).feedModel (StaticMarkovWordSource.new A)).chain.feedModel
          (StaticMarkovWordSource.new B)).chain.mnTreeRoot
      = MarkovNode.candidatesAt path
          ((MarkovChain.new d seed).feedModel (StaticMarkovWordSource.new A)).chain.mnTreeRoot
        ++ MarkovNode.candidatesAt path
          ((MarkovChain.new d seedB).feedModel
            (StaticMarkovWordSource.new B)).chain.mnTreeRoot ∧
    (∀ node,
      (((MarkovChain.new d seed).feedModel (StaticMarkovWordSource.new A)).chain.feedModel
        (StaticMarkovWordSource.new B)).chain.mnTreeRoot.nodeAt path = some node →
      node.candidates
        = MarkovNode.candidatesAt path
            ((MarkovChain.new d seed).feedModel (StaticMarkovWordSource.new A)).chain.mnTreeRoot
          ++ MarkovNode.candidatesAt path
            ((MarkovChain.new d seedB).feedModel
              (StaticMarkovWordSource.new B)).chain.mnTreeRoot) ∧
    ∀ x ∈ MarkovNode.candidatesAt path
        (((MarkovChain.new d seed).feedModel (StaticMarkovWordSource.new A)).chain.feedModel
          (StaticMarkovWordSource.new B)).chain.mnTreeRoot,
      (∃ i, 1 ≤ i ∧ i < A.length ∧ windowAt d A i = path ∧ A[i]? = some x) ∨
      (∃ i, 1 ≤ i ∧ i < B.length ∧ windowAt d B i = path ∧ B[i]? = some x) := by
  have hcA : MarkovNode.candidatesAt path
      ((MarkovChain.new d seed).feedModel (StaticMarkovWordSource.new A)).chain.mnTreeRoot
        = expectedCandidates d A path := by
    rw [candidatesAt_feedModel (MarkovChain.new d seed) hd A path, validPrefix_of_valid A hA]
    show MarkovNode.candidatesAt path MarkovNode.new ++ _ = _
    rw [candidatesAt_new, List.nil_append]
    rfl
  have hcB : MarkovNode.candidatesAt path
      ((MarkovChain.new d seedB).feedModel (StaticMarkovWordSource.new B)).chain.mnTreeRoot
        = expectedCandidates d B path := by
    rw [candidatesAt_feedModel (MarkovChain.new d seedB) hd B path, validPrefix_of_valid B hB]
    show MarkovNode.candidatesAt path MarkovNode.new ++ _ = _
    rw [candidatesAt_new, List.nil_append]
    rfl
  have hcAB : MarkovNode.candidatesAt path
      (((MarkovChain.new d seed).feedModel (StaticMarkovWordSource.new A)).chain.feedModel
        (StaticMarkovWordSource.new B)).chain.mnTreeRoot
      = MarkovNode.candidatesAt path
          ((MarkovChain.new d seed).feedModel (StaticMarkovWordSource.new A)).chain.mnTreeRoot
        ++ MarkovNode.candidatesAt path
          ((MarkovChain.new d seedB).feedModel
            (StaticMarkovWordSource.new B)).chain.mnTreeRoot := by
    rw [candidatesAt_feedModel
      ((MarkovChain.new d seed).feedModel (StaticMarkovWordSource.new A)).chain hd B path,
      validPrefix_of_valid B hB, hcB]
    rfl
  refine ⟨(feedModel_valid _ B hB).1, rfl, ?_, hcAB, ?_, ?_⟩
  · refine nodeAt_feedModel_union
      ((MarkovChain.new d seed).feedModel (StaticMarkovWordSource.new A)).chain
      (MarkovChain.new d seedB) rfl ?_ B path
    intro p hp
    have : p = [] := (nodeAt_new_isSome p).mp hp
    rw [this]
    rfl
  · intro node hnode
    rw [← hcAB]
    unfold MarkovNode.candidatesAt
    rw [hnode]
  · intro x hx
    rw [hcAB, hcA, hcB] at hx
    rcases List.mem_append.mp hx with h | h
    · exact Or.inl ((mem_expectedCandidates d A path x).mp h)
    · exact Or.inr ((mem_expectedCandidates d B path x).mp h)

/-- Witness of C21: at order 1, after the feed of `[a, b]` and then of `[c, a]`, the node
of `b` has no candidate: nothing was recorded for `b` followed by `c`. -/
theorem feeds_are_additive_witness :
    MarkovNode.candidatesAt ["b"]
        (((MarkovChain.new 1 (fun _ => 0)).feedModel
          (StaticMarkovWordSource.new ["a", "b"])).chain.feedModel
          (StaticMarkovWordSource.new ["c", "a"])).chain.mnTreeRoot = [] ∧
    MarkovNode.candidatesAt ["a"]
        (((MarkovChain.new 1 (fun _ => 0)).feedModel
          (StaticMarkovWordSource.new ["a", "b", "a", "c"])).chain.feedModel
          (StaticMarkovWordSource.new ["b", "a", "a"])).chain.mnTreeRoot = ["b", "c", "a"] :=
  ⟨(feeds_are_additive 1 (by decide) (fun _ => 0) (fun _ => 0) ["a", "b"] ["c", "a"]
      (by decide) (by decide) ["b"]).2.2.2.1.trans rfl,
    (feeds_are_additive 1 (by decide) (fun _ => 0) (fun _ => 0) ["a", "b", "a", "c"]
      ["b", "a", "a"] (by decide) (by decide) ["a"]).2.2.2.1.trans rfl⟩
